import Mathlib

/-!
Verification of the grid-paving core of the Ariadne repository
(`src/src/grid_set.cc`, with the `Grid` header in `src/include/grid.h`).

The development is a shallow embedding:

* `tribool` (boost three-valued logic) becomes the inductive `Tribool`.
* `BinaryTreeNode` becomes an inductive tree.  In the C++ class every node
  carries a `tribool _isEnabled` flag, but the data-model invariant (spec §3,
  §4.2: an internal node's "own enabledness flag is kept as `indeterminate`",
  `split` and `set_unknown` always store `indeterminate` on internal nodes)
  means the flag of an internal node carries no information, so internal
  nodes are modelled without a flag and only leaves carry a `Tribool`.
* Machine reals (`Float` with directed rounding) are modelled by `ℚ`;
  the spec states that lattice arithmetic on dyadic rationals is exact and
  treats interval arithmetic as an assumed black box.
* The mutating C++ functions become pure functions from trees to trees;
  the out-of-bounds/underflow failure modes become `Option` results.
* Helper members that live only in the missing header `grid_set.h`
  (`split`, `make_leaf`, `primary_cell_at_height`, the depth conversion,
  the `covers` wrapper) are modelled from the spec; each such definition
  says so in its doc comment.
-/

namespace Ariadne

/-- Boost `tribool`: definitely false, definitely true, or indeterminate. -/
inductive Tribool where
  | TFalse
  | TTrue
  | Indet
deriving DecidableEq

namespace Tribool

/-- Boost `definitely(t)`: the implicit conversion of a `tribool` to `bool`
is true exactly when the value is definitely true. -/
def definitely : Tribool → Bool
  | TTrue => true
  | _ => false

/-- Boost `!t` on tribools. -/
def not : Tribool → Tribool
  | TTrue => TFalse
  | TFalse => TTrue
  | Indet => Indet

/-- Boost `&&` on tribools (Kleene conjunction). -/
def and : Tribool → Tribool → Tribool
  | TFalse, _ => TFalse
  | _, TFalse => TFalse
  | TTrue, TTrue => TTrue
  | _, _ => Indet

/-- Boost `==` on tribools: indeterminate compared with anything is
indeterminate, definite values compare as booleans. -/
def teq : Tribool → Tribool → Tribool
  | Indet, _ => Indet
  | _, Indet => Indet
  | TTrue, TTrue => TTrue
  | TFalse, TFalse => TTrue
  | _, _ => TFalse

/-- Conversion of a C `int`/`bool` byte to a definite tribool value. -/
def ofBool (b : Bool) : Tribool := if b then TTrue else TFalse

end Tribool

/-- `BinaryTreeNode` (grid_set.cc): a leaf carrying a three-valued
enabledness flag, or an internal node owning two subtrees.  The internal
flag, constantly `indeterminate` in the C++ representation, is omitted. -/
inductive BinaryTreeNode where
  | leaf (isEnabled : Tribool)
  | node (l r : BinaryTreeNode)
deriving DecidableEq

namespace BinaryTreeNode

/-- `is_leaf()`. -/
def is_leaf : BinaryTreeNode → Bool
  | leaf _ => true
  | node _ _ => false

/-- `is_enabled()`: `definitely(_isEnabled)`; an internal node's flag is
indeterminate, so an internal node is never enabled. -/
def is_enabled : BinaryTreeNode → Bool
  | leaf e => e.definitely
  | node _ _ => false

/-- `is_disabled()`: `definitely(!_isEnabled)`; false on internal nodes. -/
def is_disabled : BinaryTreeNode → Bool
  | leaf e => e.not.definitely
  | node _ _ => false

/-- Modelled from the spec: `split()` from the missing header `grid_set.h`
(§4.2: a leaf is replaced by an internal node whose two children are leaves
carrying the previous enabledness; a no-op on internal nodes).  This helper
returns the two children of the split node. -/
def splitChildren : BinaryTreeNode → BinaryTreeNode × BinaryTreeNode
  | leaf e => (leaf e, leaf e)
  | node l r => (l, r)

/-- `has_enabled()` (grid_set.cc:49): some reachable leaf is enabled. -/
def has_enabled : BinaryTreeNode → Bool
  | leaf e => e.definitely
  | node l r => has_enabled l || has_enabled r

/-- `all_enabled()` (grid_set.cc:57): every reachable leaf is enabled. -/
def all_enabled : BinaryTreeNode → Bool
  | leaf e => e.definitely
  | node l r => all_enabled l && all_enabled r

/-- `BinaryTreeNode::restrict` (grid_set.cc:121): mutate the first tree into
its intersection with the second, the two trees being aligned at the same
cell.  Leaf/leaf is the tribool AND; a non-leaf restricted by an enabled
leaf is unchanged; by a non-enabled leaf it becomes a disabled leaf; an
enabled leaf restricted by a non-leaf copies the non-leaf (`copy_from`);
a non-enabled leaf is unchanged; otherwise recurse into both children. -/
def restrict : BinaryTreeNode → BinaryTreeNode → BinaryTreeNode
  | leaf a, leaf b => leaf (a.and b)
  | node l r, leaf b => if b.definitely then node l r else leaf .TFalse
  | leaf a, node bl br => if a.definitely then node bl br else leaf a
  | node l r, node bl br => node (restrict l bl) (restrict r br)

/-- `BinaryTreeNode::remove` (grid_set.cc:154): mutate the first tree into
its set difference with the second, aligned at the same cell. -/
def remove : BinaryTreeNode → BinaryTreeNode → BinaryTreeNode
  | leaf a, leaf b => if a.definitely && b.definitely then leaf .TFalse else leaf a
  | node l r, leaf b => if b.definitely then leaf .TFalse else node l r
  | leaf a, node bl br =>
      if a.definitely then node (remove (leaf a) bl) (remove (leaf a) br)
      else leaf a
  | node l r, node bl br => node (remove l bl) (remove r br)

/-- `BinaryTreeNode::mince_node` (grid_set.cc:217): while depth remains,
split every node that is not a disabled leaf and recurse one level less
deep into both children; never split below a disabled leaf. -/
def mince_node : BinaryTreeNode → Nat → BinaryTreeNode
  | t, 0 => t
  | leaf e, d + 1 =>
      if e.not.definitely then leaf e
      else node (mince_node (leaf e) d) (mince_node (leaf e) d)
  | node l r, d + 1 => node (mince_node l d) (mince_node r d)

/-- `BinaryTreeNode::recombine_node` (grid_set.cc:238): bottom-up; whenever
both children are leaves whose flags compare definitely equal (boost
`==` on tribools), collapse into a single leaf with that flag. -/
def recombine_node : BinaryTreeNode → BinaryTreeNode
  | leaf e => leaf e
  | node l r =>
      match recombine_node l, recombine_node r with
      | leaf a, leaf b =>
          if (a.teq b).definitely then leaf a else node (leaf a) (leaf b)
      | l', r' => node l' r'

/-- `BinaryTreeNode::add_enabled(pToTreeRoot, pFromTreeRoot)`
(grid_set.cc:374): adjoin the enabled cells of the second tree to the
first, the two being aligned at the same cell. -/
def add_enabled_tree : BinaryTreeNode → BinaryTreeNode → BinaryTreeNode
  | leaf a, fromTree =>
      if a.definitely then leaf a
      else
        match fromTree with
        | leaf b => if b.definitely then leaf .TTrue else leaf a
        | node fl fr => node fl fr
  | node l r, leaf b => if b.definitely then leaf .TTrue else node l r
  | node l r, node fl fr => node (add_enabled_tree l fl) (add_enabled_tree r fr)

/-- `BinaryTreeNode::add_enabled(pRootTreeNode, path, position)`
(grid_set.cc:415): enable the cell at the given path, splitting
non-enabled leaves along the way and stopping early at enabled leaves. -/
def add_enabled_path : BinaryTreeNode → List Bool → BinaryTreeNode
  | _, [] => leaf .TTrue
  | leaf a, b :: p =>
      if a.definitely then leaf a
      else if b then node (leaf a) (add_enabled_path (leaf a) p)
      else node (add_enabled_path (leaf a) p) (leaf a)
  | node l r, b :: p =>
      if b then node l (add_enabled_path r p) else node (add_enabled_path l p) r

/-- `BinaryTreeNode::add_enabled(pOtherSubTree, path)` (grid_set.cc:355):
walk the path splitting until its end or until an enabled node is met,
then adjoin the subtree there. -/
def add_enabled_sub : BinaryTreeNode → BinaryTreeNode → List Bool → BinaryTreeNode
  | t, sub, [] => if t.is_enabled then t else add_enabled_tree t sub
  | t, sub, b :: p =>
      if t.is_enabled then t
      else
        let c := t.splitChildren
        if b then node c.1 (add_enabled_sub c.2 sub p)
        else node (add_enabled_sub c.1 sub p) c.2

/-- `BinaryTreeNode::prepend_tree(rootNodePath, oldRootNode)`
(grid_set.cc:442): build a chain of internal nodes along the path, each
with a newly created disabled leaf as the off-path sibling, splicing the
old root at the end of the path.  On the empty path the C++ loop bound
`rootNodePath.size() - 1` underflows and the word is read out of bounds;
this failure is modelled as `none`. -/
def prepend_tree : List Bool → BinaryTreeNode → Option BinaryTreeNode
  | [], _ => none
  | [b], old =>
      some (if b then node (leaf .TFalse) old else node old (leaf .TFalse))
  | b :: p :: ps, old =>
      (prepend_tree (p :: ps) old).map fun t =>
        if b then node (leaf .TFalse) t else node t (leaf .TFalse)

/-- `BinaryTreeNode::remove_to_file` (grid_set.cc:323): pre-order byte
stream; one `hasLeaves` byte per node, plus one `isEnabled` byte per leaf
(the tribool flag converted to `bool`, so only definitely-true leaves
export as enabled).  Bytes are modelled as booleans since only 0 and 1
are ever written. -/
def remove_to_file : BinaryTreeNode → List Bool
  | leaf e => [false, e.definitely]
  | node l r => true :: (remove_to_file l ++ remove_to_file r)

/-- `GridTreeSet::export_to_file` (grid_set.cc:2809): write the stream with
`remove_to_file` (which deallocates the children), then
`set_unknown_unchecked` leaves the in-memory tree as a single
indeterminate leaf.  Returns the stream and the post-state of the tree. -/
def export_to_file (t : BinaryTreeNode) : List Bool × BinaryTreeNode :=
  (remove_to_file t, leaf .Indet)

/-- `BinaryTreeNode::add_enabled_from_file` (grid_set.cc:299): pre-order
reconstruction from the byte stream; a 0 `hasLeaves` byte is a leaf whose
enabledness is the next byte, otherwise the node splits and both children
are read recursively.  Reading past the end of the stream (`fgetc`
returning EOF forever, which never terminates in the C++) is modelled as
`none`; the fuel argument bounds the recursion and any fuel at least the
stream length is enough. -/
def add_enabled_from_file : Nat → List Bool → Option (BinaryTreeNode × List Bool)
  | 0, _ => none
  | _ + 1, [] => none
  | _ + 1, false :: rest =>
      match rest with
      | [] => none
      | e :: rest2 => some (leaf (Tribool.ofBool e), rest2)
  | fuel + 1, true :: rest =>
      match add_enabled_from_file fuel rest with
      | none => none
      | some (l, rest1) =>
          match add_enabled_from_file fuel rest1 with
          | none => none
          | some (r, rest2) => some (node l r, rest2)

/-- Import of a whole stream into a fresh single-node tree (the
indeterminate leaf that `export_to_file` leaves behind): parse one tree
in pre-order; trailing bytes are left unread as in the C++. -/
def import_from_stream (s : List Bool) : Option BinaryTreeNode :=
  match add_enabled_from_file s.length s with
  | some (t, _) => some t
  | none => none

/-- `BinaryTreeNode::operator==` (grid_set.cc:113): flags must compare
definitely equal or both be indeterminate, and children must match.  In
the flagless model leaves compare by `teq` with the indeterminate pair
counted equal, and a leaf never equals an internal node (the C++ child
pointers differ in nullity). -/
def nodeEqv : BinaryTreeNode → BinaryTreeNode → Bool
  | leaf a, leaf b => (a.teq b).definitely || (a = .Indet && b = .Indet)
  | node l r, node l2 r2 => nodeEqv l l2 && nodeEqv r r2
  | _, _ => false

/-- Spec-side denotation of a tree: the value a descent word of length at
least the tree depth sees, namely the definite enabledness of the leaf
met along the word.  Words ending strictly above a leaf read `false`. -/
def denotes_word : BinaryTreeNode → List Bool → Bool
  | leaf e, _ => e.definitely
  | node _ _, [] => false
  | node l r, b :: w => denotes_word (if b then r else l) w

/-- Some leaf carries the indeterminate flag (the state the data-model
invariant of spec §3 forbids). -/
def has_indet_leaf : BinaryTreeNode → Bool
  | leaf e => e = .Indet
  | node l r => has_indet_leaf l || has_indet_leaf r

end BinaryTreeNode

/-! Lattice geometry.  A lattice box is a closed rational interval per
dimension; real-space boxes use the same representation (spec §3, with `ℚ`
standing for the machine reals, whose dyadic lattice arithmetic is exact). -/

/-- A box: one closed interval `(lower, upper)` per dimension. -/
abbrev LatticeBox (d : Nat) := Fin d → ℚ × ℚ

/-- A point of `d`-dimensional space. -/
abbrev RPoint (d : Nat) := Fin d → ℚ

/-- Membership of a point in a closed box. -/
abbrev inBox {d : Nat} (x : RPoint d) (b : LatticeBox d) : Prop :=
  ∀ i, (b i).1 ≤ x i ∧ x i ≤ (b i).2

/-- Modelled from the spec: `Box::inside` of the assumed `Box` component
(§2B), the strict-subset test used by the primary-cell search — containment
in the interior. -/
abbrev inside_lattice {d : Nat} (a b : LatticeBox d) : Prop :=
  ∀ i, (b i).1 < (a i).1 ∧ (a i).2 < (b i).2

/-- Every interval of the box is ordered. -/
abbrev wfBox {d : Nat} (lb : LatticeBox d) : Prop := ∀ i, (lb i).1 ≤ (lb i).2

/-- Every interval of the box is non-degenerate. -/
abbrev wfBoxS {d : Nat} (lb : LatticeBox d) : Prop := ∀ i, (lb i).1 < (lb i).2

/-- `a` is contained in `b` componentwise. -/
abbrev subBox {d : Nat} (a b : LatticeBox d) : Prop :=
  ∀ i, (b i).1 ≤ (a i).1 ∧ (a i).2 ≤ (b i).2

/-- Modelled from the spec: `GridAbstractCell::primary_cell_at_height` of the
missing header, following §3: corners start at `(0,1)`; an odd step extends
the lower corner downward by the current width, an even step extends the
upper corner upward by it. -/
def primary_cell_corners : Nat → Int × Int
  | 0 => (0, 1)
  | h + 1 =>
      let c := primary_cell_corners h
      if (h + 1) % 2 = 1 then (c.1 - (c.2 - c.1), c.2) else (c.1, c.2 + (c.2 - c.1))

/-- `GridAbstractCell::primary_cell_lattice_box` (grid_set.cc:606): the
primary cell at a height is the same corner interval in every dimension. -/
def primary_cell_lattice_box (d : Nat) (h : Nat) : LatticeBox d :=
  fun _ => (((primary_cell_corners h).1 : ℚ), ((primary_cell_corners h).2 : ℚ))

/-- One bisection step of `GridCell::compute_lattice_box` (grid_set.cc:740):
halve axis `ax` at the interval midpoint, keeping the upper half when the
word bit is true and the lower half otherwise. -/
def bisectBox {d : Nat} (lb : LatticeBox d) (ax : Nat) (b : Bool) : LatticeBox d :=
  fun i =>
    if (i : Nat) = ax then
      let m := ((lb i).1 + (lb i).2) / 2
      if b then (m, (lb i).2) else ((lb i).1, m)
    else lb i

/-- The bisection loop of `GridCell::compute_lattice_box`: walk a word from
depth `k`, bisecting axis `(depth mod d)` at each step. -/
def walkBox (d : Nat) : LatticeBox d → Nat → List Bool → LatticeBox d
  | lb, _, [] => lb
  | lb, k, b :: w => walkBox d (bisectBox lb (k % d) b) (k + 1) w

/-- `GridCell::compute_lattice_box` (grid_set.cc:740). -/
def compute_lattice_box (d : Nat) (h : Nat) (word : List Bool) : LatticeBox d :=
  walkBox d (primary_cell_lattice_box d h) 0 word

/-- `Grid` (grid.h): an origin and a positive length per dimension. -/
structure Grid (d : Nat) where
  origin : Fin d → ℚ
  lengths : Fin d → ℚ

/-- `GridAbstractCell::lattice_box_to_space` (grid_set.cc:647): map a lattice
box through the affine grid map `y = origin + lengths * x`. -/
def lattice_box_to_space {d : Nat} (g : Grid d) (lb : LatticeBox d) : LatticeBox d :=
  fun i => (g.origin i + g.lengths i * (lb i).1, g.origin i + g.lengths i * (lb i).2)

/-- `GridAbstractCell::primary_cell_path` (grid_set.cc:668): the word from a
higher primary cell down to a lower one: one group of `dims` equal bits per
height step, all true at an odd height, all false at an even height. -/
def primary_cell_path (dims : Nat) (top bottom : Nat) : List Bool :=
  if _h : bottom < top then
    List.replicate dims (top % 2 == 1) ++ primary_cell_path dims (top - 1) bottom
  else []
termination_by top - bottom
decreasing_by omega

/-- Bounded linear search used to model the unbounded `do {...} while(true)`
height searches: the first `h ≥ start` within `fuel` steps satisfying `P`. -/
def findFirst (P : Nat → Bool) : Nat → Nat → Nat
  | 0, start => start
  | fuel + 1, start => if P start then start else findFirst P fuel (start + 1)

/-- Fuel that provably suffices for the primary-cell height search over a
given lattice box. -/
def heightFuel {d : Nat} (lb : LatticeBox d) : Nat :=
  2 * (Finset.univ.sum fun i : Fin d => (⌈|(lb i).1|⌉).toNat + (⌈|(lb i).2|⌉).toNat) + 4

/-- `GridAbstractCell::smallest_enclosing_primary_cell_height`
(grid_set.cc:617): the first height whose primary cell strictly encloses
the lattice box.  The C++ loop is unbounded; the fuel is large enough that
it is never exhausted. -/
def smallest_enclosing_primary_cell_height {d : Nat} (lb : LatticeBox d) : Nat :=
  findFirst (fun h => decide (inside_lattice lb (primary_cell_lattice_box d h)))
    (heightFuel lb) 0

/-! The compact-set oracle interface (spec §6) consumed by the outer
approximation, and the approximation driver itself. -/

/-- `CompactSetInterface` together with the optional `OpenSetInterface`
obtained by the `dynamic_cast` in `_adjoin_outer_approximation`
(grid_set.cc:1688): a membership predicate (the abstract set itself), a
bounding box, a `disjoint` oracle, and an optional `covers` oracle. -/
structure CompactSetOracle (d : Nat) where
  mem : RPoint d → Prop
  bounding_box : LatticeBox d
  disjointO : LatticeBox d → Tribool
  coversO : Option (LatticeBox d → Tribool)

/-- The `disjoint` oracle is sound: a definitely-true answer really means
the set does not meet the box. -/
abbrev disjoint_sound {d : Nat} (A : CompactSetOracle d) : Prop :=
  ∀ b x, (A.disjointO b).definitely = true → A.mem x → ¬ inBox x b

/-- The bounding box really bounds the set. -/
abbrev bounding_box_sound {d : Nat} (A : CompactSetOracle d) : Prop :=
  ∀ x, A.mem x → inBox x A.bounding_box

/-- Modelled from the spec: `zero_cell_subdivisions_to_tree_subdivisions` of
the missing header, §4.5: `max_tree_depth = n·d + h·d`. -/
def zero_cell_subdivisions_to_tree_subdivisions
    (d numSubdivInDim height bottom : Nat) : Nat :=
  numSubdivInDim * d + (height - bottom) * d

/-- `GridTreeSet::_adjoin_outer_approximation` (grid_set.cc:1682), the
lattice-box-carrying recursion, in its generic branch (the argument is not
the external `TaylorSet` class, so the tests at grid_set.cc:1698 reduce to
`definitely(theSet.disjoint(box))`): if the cell is definitely disjoint do
nothing; else if a covers oracle definitely covers it, make an enabled
leaf; else if the node is already enabled do nothing; else below the
maximum depth split and recurse into both halves, collapsing to one
enabled leaf when both children end up enabled; at maximum depth enable
the leaf.  Only the length of the path is consulted, so it is carried as
the number `k`. -/
def adjoin_outer_rec {d : Nat} (g : Grid d) (A : CompactSetOracle d) (maxd : Nat)
    (lb : LatticeBox d) (t : BinaryTreeNode) (k : Nat) : BinaryTreeNode :=
  if (A.disjointO (lattice_box_to_space g lb)).definitely then t
  else if (match A.coversO with
      | some c => (c (lattice_box_to_space g lb)).definitely
      | none => false) then
    .leaf .TTrue
  else if t.is_enabled then t
  else if _h : k < maxd then
    if (adjoin_outer_rec g A maxd (bisectBox lb (k % d) false) t.splitChildren.1 (k + 1)).is_enabled
        && (adjoin_outer_rec g A maxd (bisectBox lb (k % d) true) t.splitChildren.2 (k + 1)).is_enabled
    then .leaf .TTrue
    else
      .node (adjoin_outer_rec g A maxd (bisectBox lb (k % d) false) t.splitChildren.1 (k + 1))
        (adjoin_outer_rec g A maxd (bisectBox lb (k % d) true) t.splitChildren.2 (k + 1))
  else .leaf .TTrue
termination_by maxd - k
decreasing_by all_goals omega

/-- `GridTreeSet` (grid_set.cc): a primary-cell height and an owned tree;
the root cell's word is empty and the grid is passed separately. -/
structure GridTreeSet (d : Nat) where
  height : Nat
  tree : BinaryTreeNode

/-- `GridTreeSubset` (grid_set.cc): a root cell (height and word) plus the
borrowed subtree rooted there. -/
structure GridTreeSubset (d : Nat) where
  height : Nat
  word : List Bool
  tree : BinaryTreeNode

/-- `GridTreeSet::up_to_primary_cell` (grid_set.cc:1580): re-root the paving
at a higher primary cell by prepending the primary-cell path.  With
`toPCellHeight` equal to the current height the path is empty and
`prepend_tree` reads out of bounds, modelled by `none`. -/
def up_to_primary_cell {d : Nat} (dims : Nat) (S : GridTreeSet d) (toPCellHeight : Nat) :
    Option (GridTreeSet d) :=
  (BinaryTreeNode.prepend_tree (primary_cell_path dims toPCellHeight S.height) S.tree).map
    fun t => ⟨toPCellHeight, t⟩

/-- The loop of `GridTreeSet::align_with_cell` (grid_set.cc:1593) for the
`stop_on_enabled` mode used by the outer approximation, fused with the
operation applied at the target node: walk the path, stopping at any
enabled node (the adjoin then changes nothing), splitting the others, and
apply `F` at the end of the path. -/
def align_apply (F : BinaryTreeNode → BinaryTreeNode) :
    BinaryTreeNode → List Bool → BinaryTreeNode
  | t, [] => F t
  | t, b :: p =>
      if t.is_enabled then t
      else if b then .node t.splitChildren.1 (align_apply F t.splitChildren.2 p)
      else .node (align_apply F t.splitChildren.1 p) t.splitChildren.2

/-- `GridTreeSet::adjoin_outer_approximation` (grid_set.cc:1914), generic
(non-`TaylorSet`) branch: map the bounding box to the lattice, find the
smallest enclosing primary-cell height, align this paving with that
primary cell (re-rooting upward or descending with stop-on-enabled), and
run the recursion from the target node with the empty path and the
primary cell's lattice box.  The `none` result of `prepend_tree` cannot
occur there (the path is nonempty whenever re-rooting happens); that
branch keeps the old tree. -/
def adjoin_outer_approximation {d : Nat} (g : Grid d) (S : GridTreeSet d)
    (A : CompactSetOracle d) (numSubdivInDim : Nat) : GridTreeSet d :=
  let latticeBBox : LatticeBox d := fun i =>
    (((A.bounding_box i).1 - g.origin i) / g.lengths i,
     ((A.bounding_box i).2 - g.origin i) / g.lengths i)
  let height := smallest_enclosing_primary_cell_height latticeBBox
  let maxd := zero_cell_subdivisions_to_tree_subdivisions d numSubdivInDim height 0
  let F : BinaryTreeNode → BinaryTreeNode := fun t =>
    adjoin_outer_rec g A maxd (primary_cell_lattice_box d height) t 0
  if S.height > height then
    ⟨S.height, align_apply F S.tree (primary_cell_path d S.height height)⟩
  else if S.height < height then
    match BinaryTreeNode.prepend_tree (primary_cell_path d height S.height) S.tree with
    | some t => ⟨height, F t⟩
    | none => ⟨height, F S.tree⟩
  else ⟨height, F S.tree⟩

/-- Spec-side denotation of a paving subtree sitting on a lattice box at
depth `k`: does the point lie in the real-space box of some enabled leaf? -/
def coveredB {d : Nat} (g : Grid d) :
    BinaryTreeNode → LatticeBox d → Nat → RPoint d → Bool
  | .leaf e, lb, _, x => e.definitely && decide (inBox x (lattice_box_to_space g lb))
  | .node l r, lb, k, x =>
      coveredB g l (bisectBox lb (k % d) false) (k + 1) x ||
      coveredB g r (bisectBox lb (k % d) true) (k + 1) x

/-! Tribool predicates of the assumed `Box` component, and the
over-approximation entry point. -/

/-- Modelled from the spec: `Box::overlaps` of the assumed interval
component (§2B): definitely false when the closed boxes are disjoint,
definitely true when their interiors meet in every axis, indeterminate
when they touch only along a boundary. -/
def boxOverlaps {d : Nat} (a b : LatticeBox d) : Tribool :=
  if (List.finRange d).any fun i =>
      decide ((a i).2 < (b i).1) || decide ((b i).2 < (a i).1) then .TFalse
  else if (List.finRange d).all fun i =>
      decide ((a i).1 < (b i).2) && decide ((b i).1 < (a i).2) then .TTrue
  else .Indet

/-- Modelled from the spec: `Box::covers` of the assumed interval component:
definitely true when the second box is inside the interior of the first,
definitely false when it definitely escapes, indeterminate otherwise. -/
def boxCovers {d : Nat} (a b : LatticeBox d) : Tribool :=
  if (List.finRange d).all fun i =>
      decide ((a i).1 < (b i).1) && decide ((b i).2 < (a i).2) then .TTrue
  else if (List.finRange d).any fun i =>
      decide ((b i).1 < (a i).1) || decide ((a i).2 < (b i).2) then .TFalse
  else .Indet

/-- Modelled from the spec: a `Box` viewed through the oracle interface it
implements (a box is a compact and open-verifiable set), as bound by the
call `adjoin_outer_approximation(theBox, ...)` at grid_set.cc:1911. -/
def box_as_compact_set {d : Nat} (b : LatticeBox d) : CompactSetOracle d where
  mem x := inBox x b
  bounding_box := b
  disjointO c := (boxOverlaps b c).not
  coversO := some fun c => boxCovers c b

/-- `GridTreeSet::adjoin_over_approximation` (grid_set.cc:1904): scan the
axes for an empty-interior interval (`lower ≥ upper`); on the first hit
throw, leaving the set unchanged (the scan precedes any mutation); else
delegate to `adjoin_outer_approximation` on the box.  The boolean of the
result records whether the error was thrown. -/
def adjoin_over_approximation {d : Nat} (g : Grid d) (S : GridTreeSet d)
    (theBox : LatticeBox d) (numSubdivInDim : Nat) : GridTreeSet d × Bool :=
  match (List.finRange d).find? (fun i => decide ((theBox i).2 ≤ (theBox i).1)) with
  | some _ => (S, true)
  | none => (adjoin_outer_approximation g S (box_as_compact_set theBox) numSubdivInDim, false)

/-! `GridCell::neighboringCell` (grid_set.cc:777). -/

/-- Step 4 of `GridCell::neighboringCell`: the backward scan for the last
position on axis `dim` holding a false bit.  The C++ runs
`for(position = size-1; position >= 0; position--)` on an unsigned index,
so when no such bit exists the index wraps and the word is read out of
bounds; that failure is the `none` result. -/
def neighboring_scan (w : List Bool) (dims dim : Nat) : Option Nat :=
  (List.range w.length).reverse.find? fun p =>
    decide (p % dims = dim ∧ w.getD p true = false)

/-- Step 5 of `GridCell::neighboringCell`: from the found position to the
end of the word, invert every bit lying on axis `dim`. -/
def invert_from (w : List Bool) (dims dim p : Nat) : List Bool :=
  ((List.range w.length).zip w).map fun ib =>
    if p ≤ ib.1 ∧ ib.1 % dims = dim then !ib.2 else ib.2

/-- Step 1 of `GridCell::neighboringCell`: the base cell's upper border on
axis `dim` extended upward by half the cell width
(`upperBorderOverlapping`). -/
def neighboring_upper (d : Nat) (theHeight : Nat) (theWord : List Bool) (dim : Fin d) : ℚ :=
  (compute_lattice_box d theHeight theWord dim).2 +
    ((compute_lattice_box d theHeight theWord dim).2 -
      (compute_lattice_box d theHeight theWord dim).1) / 2

/-- Step 2 of `GridCell::neighboringCell`: the first primary-cell height
whose upper corner reaches the extended border.  The C++ `do/while` is
unbounded; the fuel is provably sufficient. -/
def neighboring_height (d : Nat) (theHeight : Nat) (theWord : List Bool) (dim : Fin d) : Nat :=
  findFirst
    (fun h => decide (neighboring_upper d theHeight theWord dim
      ≤ ((primary_cell_corners h).2 : ℚ)))
    (2 * (⌈|neighboring_upper d theHeight theWord dim|⌉).toNat + 4) 0

/-- Step 3 of `GridCell::neighboringCell`: when the required height exceeds
the base cell's, re-root the word by prepending the primary-cell path. -/
def neighboring_base (d : Nat) (theHeight : Nat) (theWord : List Bool) (dim : Fin d) :
    Nat × List Bool :=
  if theHeight < neighboring_height d theHeight theWord dim then
    (neighboring_height d theHeight theWord dim,
     primary_cell_path d (neighboring_height d theHeight theWord dim) theHeight ++ theWord)
  else (theHeight, theWord)

/-- `GridCell::neighboringCell` (grid_set.cc:777), on the lattice: extend
the base cell upward on axis `dim` (step 1), find the enclosing primary
cell (step 2), re-root when needed (step 3), then scan backward for a
false bit on axis `dim` and invert the suffix on that axis (steps 4–5).
A failing scan — the unsigned underflow of the C++ loop — is `none`. -/
def neighboringCell (d : Nat) (theHeight : Nat) (theWord : List Bool) (dim : Fin d) :
    Option (Nat × List Bool) :=
  match neighboring_scan (neighboring_base d theHeight theWord dim).2 d dim with
  | some p =>
      some ((neighboring_base d theHeight theWord dim).1,
        invert_from (neighboring_base d theHeight theWord dim).2 d dim p)
  | none => none

/-! `GridTreeSubset::covers` (grid_set.cc:1203). -/

/-- `GridTreeSubset::covers(pCurrentNode, theGrid, theHeight, theWord,
theBox)` (grid_set.cc:1203): if the cell's box definitely does not overlap
the queried box the answer is true; at an enabled leaf true; at a
non-enabled leaf the negated overlap; otherwise recurse left then right
with short-circuiting on a definite false. -/
def covers_rec {d : Nat} (g : Grid d) (theHeight : Nat) (theBox : LatticeBox d) :
    BinaryTreeNode → List Bool → Tribool
  | .leaf e, theWord =>
      let cellBox := lattice_box_to_space g (compute_lattice_box d theHeight theWord)
      let doIntersect := boxOverlaps cellBox theBox
      if doIntersect.not.definitely then .TTrue
      else if e.definitely then .TTrue
      else doIntersect.not
  | .node l r, theWord =>
      let cellBox := lattice_box_to_space g (compute_lattice_box d theHeight theWord)
      let doIntersect := boxOverlaps cellBox theBox
      if doIntersect.not.definitely then .TTrue
      else
        let result_left := covers_rec g theHeight theBox l (theWord ++ [false])
        if result_left.not.definitely then .TFalse
        else
          let result_right := covers_rec g theHeight theBox r (theWord ++ [true])
          if result_right.not.definitely then .TFalse
          else if result_left.definitely && result_right.definitely then .TTrue
          else .Indet

/-- Modelled from the spec: the public `GridTreeSubset::covers(Box)` wrapper
of the missing header (§4.4, "recursive descent with three-valued
result"), which starts the recursion at the subset's root node with the
root cell's word. -/
def GridTreeSubset.covers {d : Nat} (g : Grid d) (S : GridTreeSubset d)
    (theBox : LatticeBox d) : Tribool :=
  covers_rec g S.height theBox S.tree S.word

/-! `GridTreeSet::import_from_file` (grid_set.cc:2793), with the filesystem
made explicit as an association list from names to byte streams. -/

/-- The filesystem: named byte streams. -/
abbrev FileSystem := List (String × List Bool)

/-- `std::remove`: delete a name; fails (non-zero return) when absent. -/
def std_remove (fs : FileSystem) (name : String) : Option FileSystem :=
  if (fs.lookup name).isSome then some (fs.filter fun e => e.1 ≠ name) else none

/-- `GridTreeSet::import_from_file` (grid_set.cc:2793): open the file
(failure to open leads to undefined reads, `none`), read the tree with
`add_enabled_from_file`, close, then delete the file with `std::remove`,
failing fatally (`ARIADNE_FAIL_MSG`) if the deletion fails. -/
def import_from_file (fs : FileSystem) (name : String) :
    Option (BinaryTreeNode × FileSystem) :=
  match fs.lookup name with
  | none => none
  | some bytes =>
      match BinaryTreeNode.import_from_stream bytes with
      | none => none
      | some t =>
          match std_remove fs name with
          | none => none
          | some fs2 => some (t, fs2)

/-! Lemmas and claim theorems. -/

theorem Tribool.definitely_and (a b : Tribool) :
    (a.and b).definitely = (a.definitely && b.definitely) := by
  cases a <;> cases b <;> rfl

theorem BinaryTreeNode.restrict_denotes (A B : BinaryTreeNode) (w : List Bool) :
    (BinaryTreeNode.restrict A B).denotes_word w
      = (A.denotes_word w && B.denotes_word w) := by
  induction A generalizing B w with
  | leaf a =>
      cases B with
      | leaf b =>
          simp [BinaryTreeNode.restrict, BinaryTreeNode.denotes_word,
            Tribool.definitely_and]
      | node bl br =>
          cases a <;>
            simp [BinaryTreeNode.restrict, BinaryTreeNode.denotes_word,
              Tribool.definitely]
  | node l r ihl ihr =>
      cases B with
      | leaf b =>
          cases b <;>
            simp [BinaryTreeNode.restrict, BinaryTreeNode.denotes_word,
              Tribool.definitely]
      | node bl br =>
          cases w with
          | nil => simp [BinaryTreeNode.restrict, BinaryTreeNode.denotes_word]
          | cons bb w =>
              cases bb <;>
                simp [BinaryTreeNode.restrict, BinaryTreeNode.denotes_word, ihl, ihr]

/-- C2: `BinaryTreeNode::restrict(A, B)` turns `A` into the intersection of
the two aligned trees: on every descent word the denotation of the result
is the conjunction of the denotations, two leaves combine by the tribool
AND, a non-leaf restricted by an enabled leaf is unchanged, and a non-leaf
restricted by a disabled leaf becomes a disabled leaf. -/
theorem restrict_is_intersection (A B : BinaryTreeNode) (a b : Tribool)
    (l r : BinaryTreeNode) :
    (∀ w, (BinaryTreeNode.restrict A B).denotes_word w
        = (A.denotes_word w && B.denotes_word w)) ∧
    BinaryTreeNode.restrict (.leaf a) (.leaf b) = .leaf (a.and b) ∧
    BinaryTreeNode.restrict (.node l r) (.leaf .TTrue) = .node l r ∧
    BinaryTreeNode.restrict (.node l r) (.leaf .TFalse) = .leaf .TFalse := by
  refine ⟨fun w => BinaryTreeNode.restrict_denotes A B w, rfl, rfl, rfl⟩

theorem BinaryTreeNode.recombine_mince_leaf (k : Nat) (e : Tribool)
    (he : e ≠ .Indet) :
    BinaryTreeNode.recombine_node (BinaryTreeNode.mince_node (.leaf e) k) = .leaf e := by
  induction k with
  | zero => rfl
  | succ k ih =>
      cases e with
      | TFalse =>
          simp [BinaryTreeNode.mince_node, Tribool.not, Tribool.definitely,
            BinaryTreeNode.recombine_node]
      | TTrue =>
          simp only [BinaryTreeNode.mince_node, Tribool.not, Tribool.definitely]
          simp [BinaryTreeNode.recombine_node, ih, Tribool.teq, Tribool.definitely]
      | Indet => exact absurd rfl he

/-- C3: for every tree of the data model (no indeterminate leaves, spec §3)
and every depth, recombining the minced tree gives the same tree as
recombining the original: mincing never changes the denoted set. -/
theorem recombine_mince_eq_recombine (T : BinaryTreeNode) (k : Nat)
    (hT : T.has_indet_leaf = false) :
    BinaryTreeNode.recombine_node (BinaryTreeNode.mince_node T k)
      = BinaryTreeNode.recombine_node T := by
  induction T generalizing k with
  | leaf e =>
      have he : e ≠ .Indet := by
        simpa [BinaryTreeNode.has_indet_leaf] using hT
      rw [BinaryTreeNode.recombine_mince_leaf k e he]
      rfl
  | node l r ihl ihr =>
      have h := hT
      simp only [BinaryTreeNode.has_indet_leaf, Bool.or_eq_false_iff] at h
      cases k with
      | zero => rfl
      | succ k =>
          show BinaryTreeNode.recombine_node
              (.node (BinaryTreeNode.mince_node l k) (BinaryTreeNode.mince_node r k)) = _
          simp only [BinaryTreeNode.recombine_node]
          rw [ihl k h.1, ihr k h.2]

/-- Witness for C3 at a concrete tree and depth. -/
theorem recombine_mince_eq_recombine_witness :
    BinaryTreeNode.has_indet_leaf
        (.node (.leaf .TTrue) (.leaf .TFalse)) = false ∧
    BinaryTreeNode.recombine_node
        (BinaryTreeNode.mince_node (.node (.leaf .TTrue) (.leaf .TFalse)) 2)
      = BinaryTreeNode.recombine_node (.node (.leaf .TTrue) (.leaf .TFalse)) :=
  ⟨by decide, recombine_mince_eq_recombine (.node (.leaf .TTrue) (.leaf .TFalse)) 2 (by decide)⟩

theorem BinaryTreeNode.nodeEqv_refl (T : BinaryTreeNode) : BinaryTreeNode.nodeEqv T T = true := by
  induction T with
  | leaf e => cases e <;> rfl
  | node l r ihl ihr => simp [BinaryTreeNode.nodeEqv, ihl, ihr]

theorem BinaryTreeNode.add_enabled_from_file_export (T : BinaryTreeNode) :
    ∀ (fuel : Nat) (rest : List Bool), T.has_indet_leaf = false →
      T.remove_to_file.length ≤ fuel →
      BinaryTreeNode.add_enabled_from_file fuel (T.remove_to_file ++ rest)
        = some (T, rest) := by
  induction T with
  | leaf e =>
      intro fuel rest hT hf
      match fuel with
      | f + 1 =>
          cases e with
          | TFalse => rfl
          | TTrue => rfl
          | Indet => simp [BinaryTreeNode.has_indet_leaf] at hT
  | node l r ihl ihr =>
      intro fuel rest hT hf
      simp only [BinaryTreeNode.has_indet_leaf, Bool.or_eq_false_iff] at hT
      simp only [BinaryTreeNode.remove_to_file, List.length_cons, List.length_append] at hf
      match fuel with
      | f + 1 =>
          have hfl : l.remove_to_file.length ≤ f := by omega
          have hfr : r.remove_to_file.length ≤ f := by omega
          show BinaryTreeNode.add_enabled_from_file (f + 1)
              (true :: ((l.remove_to_file ++ r.remove_to_file) ++ rest)) = _
          rw [List.append_assoc]
          simp only [BinaryTreeNode.add_enabled_from_file,
            ihl f (r.remove_to_file ++ rest) hT.1 hfl, ihr f rest hT.2 hfr]

/-- C4: for every tree with no indeterminate leaves, exporting by the
pre-order byte protocol and importing the stream into a fresh single-node
tree reconstructs a tree structurally equal to the original, and equal in
the sense of `BinaryTreeNode::operator==`. -/
theorem import_export_roundtrip (T : BinaryTreeNode)
    (hT : T.has_indet_leaf = false) :
    ∃ T2, BinaryTreeNode.import_from_stream T.remove_to_file = some T2 ∧
      T2 = T ∧ BinaryTreeNode.nodeEqv T2 T = true := by
  refine ⟨T, ?_, rfl, BinaryTreeNode.nodeEqv_refl T⟩
  have h := BinaryTreeNode.add_enabled_from_file_export T T.remove_to_file.length [] hT le_rfl
  rw [List.append_nil] at h
  simp [BinaryTreeNode.import_from_stream, h]

/-- Witness for C4 at a concrete two-leaf tree. -/
theorem import_export_roundtrip_witness :
    ∃ T2, BinaryTreeNode.import_from_stream
        (BinaryTreeNode.remove_to_file (.node (.leaf .TTrue) (.leaf .TFalse))) = some T2 ∧
      T2 = BinaryTreeNode.node (.leaf .TTrue) (.leaf .TFalse) ∧
      BinaryTreeNode.nodeEqv T2 (.node (.leaf .TTrue) (.leaf .TFalse)) = true :=
  import_export_roundtrip (.node (.leaf .TTrue) (.leaf .TFalse)) (by decide)

/-- C8: `adjoin_over_approximation` throws exactly when some axis of the
box has empty interior (`lower ≥ upper`); when it throws the paving is
unchanged, and otherwise it performs `adjoin_outer_approximation` on the
box. -/
theorem adjoin_over_approximation_spec {d : Nat} (g : Grid d) (S : GridTreeSet d)
    (b : LatticeBox d) (n : Nat) :
    ((adjoin_over_approximation g S b n).2 = true ↔ ∃ i, (b i).2 ≤ (b i).1) ∧
    ((∃ i, (b i).2 ≤ (b i).1) → (adjoin_over_approximation g S b n).1 = S) ∧
    ((¬ ∃ i, (b i).2 ≤ (b i).1) →
      (adjoin_over_approximation g S b n).1
        = adjoin_outer_approximation g S (box_as_compact_set b) n) := by
  unfold adjoin_over_approximation
  rcases h : (List.finRange d).find? (fun i => decide ((b i).2 ≤ (b i).1)) with _ | i
  · rw [List.find?_eq_none] at h
    have hno : ¬ ∃ i, (b i).2 ≤ (b i).1 := by
      rintro ⟨i, hi⟩
      exact absurd (decide_eq_true hi) (h i (List.mem_finRange i))
    exact ⟨by simpa using hno, fun hyes => absurd hyes hno, fun _ => rfl⟩
  · have hi : (b i).2 ≤ (b i).1 := by
      have := List.find?_some h
      simpa using this
    exact ⟨⟨fun _ => ⟨i, hi⟩, fun _ => rfl⟩, fun _ => rfl, fun hno => absurd ⟨i, hi⟩ hno⟩

/-- Witness for C8: a box with an empty-interior axis throws and leaves the
paving unchanged. -/
theorem adjoin_over_approximation_spec_witness :
    (adjoin_over_approximation ⟨fun _ => 0, fun _ => 1⟩
        (⟨0, .leaf .TFalse⟩ : GridTreeSet 1) (fun _ => ((1 : ℚ), (0 : ℚ))) 3).1
      = ⟨0, .leaf .TFalse⟩ :=
  (adjoin_over_approximation_spec ⟨fun _ => 0, fun _ => 1⟩ ⟨0, .leaf .TFalse⟩
      (fun _ => ((1 : ℚ), (0 : ℚ))) 3).2.1 ⟨0, by norm_num⟩

/-- C9: whenever the queried box definitely does not overlap the box of the
subset's root cell — in particular for any box lying entirely outside the
root cell, and for the empty paving — `covers` answers definitely true. -/
theorem covers_of_disjoint_root {d : Nat} (g : Grid d) (S : GridTreeSubset d)
    (B : LatticeBox d)
    (h : boxOverlaps (lattice_box_to_space g (compute_lattice_box d S.height S.word)) B
        = .TFalse) :
    GridTreeSubset.covers g S B = .TTrue := by
  obtain ⟨hh, w, t⟩ := S
  cases t <;> simp_all [GridTreeSubset.covers, covers_rec, Tribool.not, Tribool.definitely]

/-- Witness for C9: the empty paving covers a box disjoint from its root
cell. -/
theorem covers_of_disjoint_root_witness :
    GridTreeSubset.covers (⟨fun _ => 0, fun _ => 1⟩ : Grid 1)
        (⟨0, [], .leaf .TFalse⟩ : GridTreeSubset 1) (fun _ => ((2 : ℚ), (3 : ℚ)))
      = .TTrue :=
  covers_of_disjoint_root ⟨fun _ => 0, fun _ => 1⟩ ⟨0, [], .leaf .TFalse⟩
    (fun _ => ((2 : ℚ), (3 : ℚ)))
    (by norm_num [boxOverlaps, lattice_box_to_space, compute_lattice_box, walkBox,
      primary_cell_lattice_box, primary_cell_corners, List.finRange])

theorem lookup_filter_self (fs : FileSystem) (name : String) :
    (fs.filter fun e => e.1 ≠ name).lookup name = none := by
  induction fs with
  | nil => rfl
  | cons e l ih =>
      obtain ⟨k, v⟩ := e
      by_cases h : k = name
      · simpa [List.filter_cons, h] using ih
      · have hne : (name == k) = false :=
          beq_eq_false_iff_ne.mpr fun hh => h hh.symm
        simpa [List.filter_cons, h, List.lookup, hne] using ih

/-- C10: importing from a file reads the tree and then always deletes the
file; with the file present (and a well-formed stream) the import
succeeds and the resulting filesystem no longer holds the name. -/
theorem import_from_file_deletes (fs : FileSystem) (name : String)
    (bytes : List Bool) (t : BinaryTreeNode)
    (hfs : fs.lookup name = some bytes)
    (ht : BinaryTreeNode.import_from_stream bytes = some t) :
    ∃ fs2, import_from_file fs name = some (t, fs2) ∧ fs2.lookup name = none := by
  refine ⟨fs.filter fun e => e.1 ≠ name, ?_, lookup_filter_self fs name⟩
  simp [import_from_file, std_remove, hfs, ht]

/-- Witness for C10 on a one-file filesystem holding a one-leaf stream. -/
theorem import_from_file_deletes_witness :
    ∃ fs2, import_from_file [("t", [false, true])] "t"
        = some (.leaf .TTrue, fs2) ∧ fs2.lookup "t" = none :=
  import_from_file_deletes [("t", [false, true])] "t" [false, true]
    (.leaf .TTrue) rfl rfl

/-! Arithmetic of the primary-cell corner sequence. -/

theorem primary_cell_corners_diff (h : Nat) :
    (primary_cell_corners h).2 - (primary_cell_corners h).1 = 2 ^ h := by
  induction h with
  | zero => rfl
  | succ h ih =>
      simp only [primary_cell_corners]
      split <;> simp only [pow_succ] <;> linarith

theorem primary_cell_corners_le (h : Nat) :
    (primary_cell_corners h).1 ≤ (primary_cell_corners h).2 := by
  have := primary_cell_corners_diff h
  have : (0 : Int) < 2 ^ h := by positivity
  omega

theorem primary_cell_corners_step (h : Nat) :
    (primary_cell_corners (h + 1)).1 ≤ (primary_cell_corners h).1 ∧
    (primary_cell_corners h).2 ≤ (primary_cell_corners (h + 1)).2 := by
  have hle := primary_cell_corners_le h
  simp only [primary_cell_corners]
  split <;> constructor <;> omega

theorem primary_cell_corners_mono {h h2 : Nat} (hh : h ≤ h2) :
    (primary_cell_corners h2).1 ≤ (primary_cell_corners h).1 ∧
    (primary_cell_corners h).2 ≤ (primary_cell_corners h2).2 := by
  induction h2 with
  | zero =>
      have : h = 0 := by omega
      subst this; exact ⟨le_rfl, le_rfl⟩
  | succ h2 ih =>
      rcases Nat.lt_or_ge h (h2 + 1) with hlt | hge
      · have hih := ih (by omega)
        have hst := primary_cell_corners_step h2
        exact ⟨le_trans hst.1 hih.1, le_trans hih.2 hst.2⟩
      · have : h = h2 + 1 := by omega
        subst this; exact ⟨le_rfl, le_rfl⟩

theorem primary_cell_corners_two_step (h : Nat) :
    (primary_cell_corners (h + 2)).1 ≤ (primary_cell_corners h).1 - 1 ∧
    (primary_cell_corners h).2 + 1 ≤ (primary_cell_corners (h + 2)).2 := by
  have hd := primary_cell_corners_diff h
  have hd1 := primary_cell_corners_diff (h + 1)
  have hpos : (1 : Int) ≤ 2 ^ h := by exact_mod_cast Nat.one_le_two_pow
  have hpos1 : (1 : Int) ≤ 2 ^ (h + 1) := by exact_mod_cast Nat.one_le_two_pow
  by_cases hp : (h + 1) % 2 = 1
  · have hp2 : ¬ ((h + 2) % 2 = 1) := by omega
    simp only [primary_cell_corners, hp, hp2, if_true, if_false] at hd1 ⊢
    constructor <;> omega
  · have hp2 : (h + 2) % 2 = 1 := by omega
    simp only [primary_cell_corners, hp, hp2, if_true, if_false] at hd1 ⊢
    constructor <;> omega

theorem primary_cell_corners_bound (k : Nat) :
    (primary_cell_corners (2 * k)).1 ≤ -(k : Int) ∧
    (k : Int) + 1 ≤ (primary_cell_corners (2 * k)).2 := by
  induction k with
  | zero => constructor <;> simp [primary_cell_corners]
  | succ k ih =>
      have h2 : 2 * (k + 1) = 2 * k + 2 := by ring
      rw [h2]
      have := primary_cell_corners_two_step (2 * k)
      push_cast
      constructor <;> [linarith [ih.1, this.1]; linarith [ih.2, this.2]]

/-- An odd step never raises the upper corner. -/
theorem primary_cell_corners_odd_eq (h : Nat) (hodd : (h + 1) % 2 = 1) :
    (primary_cell_corners (h + 1)).2 = (primary_cell_corners h).2 := by
  simp [primary_cell_corners, hodd]

/-! The bounded first-satisfier search. -/

theorem findFirst_spec (P : Nat → Bool) :
    ∀ (fuel start : Nat), (∃ j, j < fuel ∧ P (start + j) = true) →
      P (findFirst P fuel start) = true ∧ start ≤ findFirst P fuel start ∧
      ∀ m, start ≤ m → m < findFirst P fuel start → P m = false := by
  intro fuel
  induction fuel with
  | zero => intro start h; obtain ⟨j, hj, _⟩ := h; omega
  | succ fuel ih =>
      intro start h
      by_cases hs : P start = true
      · refine ⟨by simpa [findFirst, hs], by simp [findFirst, hs], ?_⟩
        intro m hm hm2
        simp [findFirst, hs] at hm2
        omega
      · obtain ⟨j, hj, hPj⟩ := h
        have hj0 : j ≠ 0 := by rintro rfl; simp at hPj; exact hs hPj
        have hex : ∃ j2, j2 < fuel ∧ P (start + 1 + j2) = true :=
          ⟨j - 1, by omega, by rw [show start + 1 + (j - 1) = start + j by omega]; exact hPj⟩
        obtain ⟨h1, h2, h3⟩ := ih (start + 1) hex
        have hres : findFirst P (fuel + 1) start = findFirst P fuel (start + 1) := by
          simp [findFirst, hs]
        refine ⟨by rw [hres]; exact h1, by omega, ?_⟩
        intro m hm hm2
        rw [hres] at hm2
        rcases Nat.eq_or_lt_of_le hm with heq | hlt
        · simpa [← heq] using (Bool.eq_false_iff.mpr hs)
        · exact h3 m (by omega) hm2

theorem smallest_enclosing_spec {d : Nat} (lb : LatticeBox d) :
    inside_lattice lb
        (primary_cell_lattice_box d (smallest_enclosing_primary_cell_height lb)) ∧
    ∀ m, m < smallest_enclosing_primary_cell_height lb →
      ¬ inside_lattice lb (primary_cell_lattice_box d m) := by
  set P : Nat → Bool :=
    fun h => decide (inside_lattice lb (primary_cell_lattice_box d h)) with hP
  set Ssum : Nat :=
    Finset.univ.sum fun i : Fin d => (⌈|(lb i).1|⌉).toNat + (⌈|(lb i).2|⌉).toNat with hS
  have hPj : P (2 * (Ssum + 1)) = true := by
    rw [hP]
    refine decide_eq_true ?_
    intro i
    have hbound := primary_cell_corners_bound (Ssum + 1)
    have hterm : (⌈|(lb i).1|⌉).toNat + (⌈|(lb i).2|⌉).toNat ≤ Ssum := by
      rw [hS]
      exact Finset.single_le_sum (f := fun i : Fin d => (⌈|(lb i).1|⌉).toNat + (⌈|(lb i).2|⌉).toNat)
        (fun _ _ => Nat.zero_le _) (Finset.mem_univ i)
    have h1 : |(lb i).1| ≤ ((⌈|(lb i).1|⌉).toNat : ℚ) := by
      have h0 : (0 : Int) ≤ ⌈|(lb i).1|⌉ := Int.ceil_nonneg (abs_nonneg _)
      calc |(lb i).1| ≤ ((⌈|(lb i).1|⌉ : Int) : ℚ) := Int.le_ceil _
        _ = ((⌈|(lb i).1|⌉).toNat : ℚ) := by exact_mod_cast (Int.toNat_of_nonneg h0).symm
    have h2 : |(lb i).2| ≤ ((⌈|(lb i).2|⌉).toNat : ℚ) := by
      have h0 : (0 : Int) ≤ ⌈|(lb i).2|⌉ := Int.ceil_nonneg (abs_nonneg _)
      calc |(lb i).2| ≤ ((⌈|(lb i).2|⌉ : Int) : ℚ) := Int.le_ceil _
        _ = ((⌈|(lb i).2|⌉).toNat : ℚ) := by exact_mod_cast (Int.toNat_of_nonneg h0).symm
    simp only [primary_cell_lattice_box]
    constructor
    · have hc : ((primary_cell_corners (2 * (Ssum + 1))).1 : ℚ) ≤ -((Ssum : ℚ) + 1) := by
        have := hbound.1
        have : ((primary_cell_corners (2 * (Ssum + 1))).1 : ℚ) ≤ (-((Ssum : Int) + 1) : Int) := by
          exact_mod_cast this
        push_cast at this
        linarith
      have hn := neg_abs_le (lb i).1
      have hq : ((⌈|(lb i).1|⌉).toNat : ℚ) ≤ (Ssum : ℚ) := by
        exact_mod_cast le_trans (Nat.le_add_right _ _) hterm
      linarith
    · have hq : ((Ssum : ℚ) + 1) + 1 ≤ ((primary_cell_corners (2 * (Ssum + 1))).2 : ℚ) := by
        have := hbound.2
        have : (((Ssum : Int) + 1 + 1 : Int) : ℚ) ≤ ((primary_cell_corners (2 * (Ssum + 1))).2 : ℚ) := by
          exact_mod_cast this
        push_cast at this
        linarith
      have hu := le_abs_self (lb i).2
      have hq2 : ((⌈|(lb i).2|⌉).toNat : ℚ) ≤ (Ssum : ℚ) := by
        exact_mod_cast le_trans (Nat.le_add_left _ _) hterm
      linarith
  have hex : ∃ j, j < heightFuel lb ∧ P (0 + j) = true := by
    refine ⟨2 * (Ssum + 1), ?_, by simpa using hPj⟩
    simp only [heightFuel, ← hS]
    omega
  obtain ⟨h1, _, h3⟩ := findFirst_spec P (heightFuel lb) 0 hex
  refine ⟨?_, ?_⟩
  · have : P (smallest_enclosing_primary_cell_height lb) = true := h1
    rw [hP] at this
    exact of_decide_eq_true this
  · intro m hm hins
    have : P m = false := h3 m (Nat.zero_le m) hm
    rw [hP] at this
    exact absurd (decide_eq_true hins) (by simp [this])

/-! Bisection and walking of lattice boxes. -/

theorem bisectBox_wf {d : Nat} {lb : LatticeBox d} (h : wfBox lb) (ax : Nat) (b : Bool) :
    wfBox (bisectBox lb ax b) := by
  intro i
  have hlu := h i
  simp only [bisectBox]
  split
  · cases b <;> simp <;> linarith
  · exact hlu

theorem bisectBox_sub {d : Nat} {lb : LatticeBox d} (h : wfBox lb) (ax : Nat) (b : Bool) :
    subBox (bisectBox lb ax b) lb := by
  intro i
  have hlu := h i
  simp only [bisectBox]
  split
  · cases b <;> simp <;> linarith
  · exact ⟨le_rfl, le_rfl⟩

theorem subBox_trans {d : Nat} {a b c : LatticeBox d}
    (h1 : subBox a b) (h2 : subBox b c) : subBox a c := by
  intro i
  exact ⟨le_trans (h2 i).1 (h1 i).1, le_trans (h1 i).2 (h2 i).2⟩

theorem walkBox_wf {d : Nat} :
    ∀ (w : List Bool) (lb : LatticeBox d) (k : Nat), wfBox lb → wfBox (walkBox d lb k w) := by
  intro w
  induction w with
  | nil => intro lb k h; exact h
  | cons b w ih => intro lb k h; exact ih _ _ (bisectBox_wf h _ _)

theorem walkBox_sub {d : Nat} :
    ∀ (w : List Bool) (lb : LatticeBox d) (k : Nat), wfBox lb →
      subBox (walkBox d lb k w) lb := by
  intro w
  induction w with
  | nil => intro lb k h i; exact ⟨le_rfl, le_rfl⟩
  | cons b w ih =>
      intro lb k h
      exact subBox_trans (ih _ _ (bisectBox_wf h _ _)) (bisectBox_sub h _ _)

theorem inBox_space_mono {d : Nat} (g : Grid d) (hg : ∀ i, 0 ≤ g.lengths i)
    {a b : LatticeBox d} (hs : subBox a b) {x : RPoint d}
    (hx : inBox x (lattice_box_to_space g a)) : inBox x (lattice_box_to_space g b) := by
  intro i
  have h1 := (hx i).1
  have h2 := (hx i).2
  have h3 := (hs i).1
  have h4 := (hs i).2
  simp only [lattice_box_to_space] at h1 h2 ⊢
  have hm1 := mul_le_mul_of_nonneg_left h3 (hg i)
  have hm2 := mul_le_mul_of_nonneg_left h4 (hg i)
  constructor <;> linarith

theorem bisect_cover_space {d : Nat} (g : Grid d)
    {lb : LatticeBox d} (ax : Nat) {x : RPoint d}
    (hx : inBox x (lattice_box_to_space g lb)) :
    inBox x (lattice_box_to_space g (bisectBox lb ax false)) ∨
    inBox x (lattice_box_to_space g (bisectBox lb ax true)) := by
  by_cases hax : ∃ i : Fin d, (i : Nat) = ax
  · obtain ⟨i0, hi0⟩ := hax
    by_cases hxm : x i0 ≤ g.origin i0 + g.lengths i0 * (((lb i0).1 + (lb i0).2) / 2)
    · left
      intro i
      by_cases hi : (i : Nat) = ax
      · have hii : i = i0 := Fin.ext (by rw [hi, hi0])
        subst hii
        have h1 := (hx i).1
        simp only [lattice_box_to_space, bisectBox, hi, if_true] at h1 ⊢
        exact ⟨h1, hxm⟩
      · have h1 := hx i
        simp only [lattice_box_to_space, bisectBox, hi, if_false] at h1 ⊢
        exact h1
    · right
      intro i
      by_cases hi : (i : Nat) = ax
      · have hii : i = i0 := Fin.ext (by rw [hi, hi0])
        subst hii
        have h2 := (hx i).2
        have hge := le_of_lt (lt_of_not_le hxm)
        simp only [lattice_box_to_space, bisectBox, hi, if_true] at h2 ⊢
        exact ⟨hge, h2⟩
      · have h1 := hx i
        simp only [lattice_box_to_space, bisectBox, hi, if_false] at h1 ⊢
        exact h1
  · left
    intro i
    have hi : ¬ ((i : Nat) = ax) := fun hh => hax ⟨i, hh⟩
    have h1 := hx i
    simp only [lattice_box_to_space, bisectBox, hi, if_false] at h1 ⊢
    exact h1

theorem coveredB_congr_mod {d : Nat} (g : Grid d) :
    ∀ (t : BinaryTreeNode) (lb : LatticeBox d) (k k2 : Nat) (x : RPoint d),
      k % d = k2 % d → coveredB g t lb k x = coveredB g t lb k2 x := by
  intro t
  induction t with
  | leaf e => intros; rfl
  | node l r ihl ihr =>
      intro lb k k2 x hk
      have hk1 : (k + 1) % d = (k2 + 1) % d := by
        rw [Nat.add_mod k 1 d, hk, ← Nat.add_mod]
      simp only [coveredB, hk]
      rw [ihl (bisectBox lb (k2 % d) false) (k + 1) (k2 + 1) x hk1,
        ihr (bisectBox lb (k2 % d) true) (k + 1) (k2 + 1) x hk1]

theorem walkBox_append {d : Nat} (a : List Bool) :
    ∀ (b : List Bool) (lb : LatticeBox d) (k : Nat),
      walkBox d lb k (a ++ b) = walkBox d (walkBox d lb k a) (k + a.length) b := by
  induction a with
  | nil => intro b lb k; simp [walkBox]
  | cons c a ih =>
      intro b lb k
      have hidx : k + (c :: a).length = k + 1 + a.length := by
        simp only [List.length_cons]
        omega
      show walkBox d (bisectBox lb (k % d) c) (k + 1) (a ++ b)
          = walkBox d (walkBox d lb k (c :: a)) (k + (c :: a).length) b
      rw [hidx, ih b (bisectBox lb (k % d) c) (k + 1)]
      rfl

theorem exists_shift_mod {d : Nat} (hd : 0 < d) (k : Nat) (i : Fin d) :
    ∃ j, j < d ∧ (k + j) % d = (i : Nat) := by
  have hk : k % d < d := Nat.mod_lt _ hd
  refine ⟨((i : Nat) + d - k % d) % d, Nat.mod_lt _ hd, ?_⟩
  rw [Nat.add_mod_mod]
  have h4 : (k + ((i : Nat) + d - k % d)) % d = (k % d + ((i : Nat) + d - k % d)) % d :=
    ((Nat.mod_modEq k d).add_right _).symm
  have h6 : k % d ≤ (i : Nat) + d := le_trans (le_of_lt hk) (Nat.le_add_left d _)
  have h5 : k % d + ((i : Nat) + d - k % d) = (i : Nat) + d := by
    rw [Nat.add_comm, Nat.sub_add_cancel h6]
  rw [h4, h5, Nat.add_mod_right, Nat.mod_eq_of_lt i.isLt]

theorem walkBox_replicate {d : Nat} (bit : Bool) :
    ∀ (m : Nat) (lb : LatticeBox d) (k : Nat), m ≤ d →
      ∀ i : Fin d, walkBox d lb k (List.replicate m bit) i
        = if ∃ j, j < m ∧ (k + j) % d = (i : Nat) then
            (if bit then ((((lb i).1 + (lb i).2) / 2), (lb i).2)
             else ((lb i).1, (((lb i).1 + (lb i).2) / 2)))
          else lb i := by
  intro m
  induction m with
  | zero =>
      intro lb k hm i
      simp [walkBox]
  | succ m ih =>
      intro lb k hm i
      rw [List.replicate_succ]
      show walkBox d (bisectBox lb (k % d) bit) (k + 1) (List.replicate m bit) i = _
      rw [ih (bisectBox lb (k % d) bit) (k + 1) (by omega) i]
      by_cases hik : (i : Nat) = k % d
      · have hnot : ¬ ∃ j, j < m ∧ (k + 1 + j) % d = (i : Nat) := by
          rintro ⟨j, hj, hjmod⟩
          have h1 : (k + (1 + j)) % d = k % d := by
            rw [show k + (1 + j) = k + 1 + j by omega, hjmod, hik]
          have hME : k + (1 + j) ≡ k + 0 [MOD d] := by
            show (k + (1 + j)) % d = (k + 0) % d
            simpa using h1
          have hdvd : d ∣ 1 + j := by
            have := (Nat.ModEq.add_left_cancel' k hME)
            exact (Nat.modEq_zero_iff_dvd).1 this
          have := Nat.le_of_dvd (by omega) hdvd
          omega
        rw [if_neg hnot,
          if_pos (⟨0, by omega, by simpa using hik.symm⟩ :
            ∃ j, j < m + 1 ∧ (k + j) % d = (i : Nat))]
        cases bit <;> simp [bisectBox, hik]
      · have hbis : bisectBox lb (k % d) bit i = lb i := by
          simp [bisectBox, hik]
        rw [hbis]
        have hiff : (∃ j, j < m ∧ (k + 1 + j) % d = (i : Nat)) ↔
            (∃ j, j < m + 1 ∧ (k + j) % d = (i : Nat)) := by
          constructor
          · rintro ⟨j, hj, hjm⟩
            exact ⟨j + 1, by omega, by rw [show k + (j + 1) = k + 1 + j by omega]; exact hjm⟩
          · rintro ⟨j, hj, hjm⟩
            match j, hjm with
            | 0, hjm =>
                exact absurd (by simpa using hjm.symm) hik
            | j + 1, hjm =>
                exact ⟨j, by omega, by rw [show k + 1 + j = k + (j + 1) by omega]; exact hjm⟩
        exact if_congr hiff rfl rfl

theorem walkBox_primary_group {d : Nat} (hd : 0 < d) (h k : Nat) :
    walkBox d (primary_cell_lattice_box d (h + 1)) k
        (List.replicate d ((h + 1) % 2 == 1))
      = primary_cell_lattice_box d h := by
  funext i
  rw [walkBox_replicate ((h + 1) % 2 == 1) d (primary_cell_lattice_box d (h + 1)) k le_rfl i,
    if_pos (exists_shift_mod hd k i)]
  by_cases hp : (h + 1) % 2 = 1
  · have hb : ((h + 1) % 2 == 1) = true := by simp [hp]
    rw [hb, if_pos rfl]
    simp only [primary_cell_lattice_box, primary_cell_corners, hp, if_pos]
    apply Prod.ext
    · show ((((primary_cell_corners h).1 - ((primary_cell_corners h).2 - (primary_cell_corners h).1) : Int) : ℚ)
          + (((primary_cell_corners h).2 : Int) : ℚ)) / 2 = ((primary_cell_corners h).1 : ℚ)
      push_cast
      ring
    · rfl
  · have hb : ((h + 1) % 2 == 1) = false := by simp [hp]
    rw [hb, if_neg (by simp)]
    simp only [primary_cell_lattice_box, primary_cell_corners, hp, if_neg, ite_false]
    apply Prod.ext
    · rfl
    · show ((((primary_cell_corners h).1 : Int) : ℚ)
          + (((primary_cell_corners h).2 + ((primary_cell_corners h).2 - (primary_cell_corners h).1) : Int) : ℚ)) / 2
        = ((primary_cell_corners h).2 : ℚ)
      push_cast
      ring

theorem walkBox_primary_path {d : Nat} (hd : 0 < d) :
    ∀ (n lo k : Nat),
      walkBox d (primary_cell_lattice_box d (lo + n)) k (primary_cell_path d (lo + n) lo)
        = primary_cell_lattice_box d lo := by
  intro n
  induction n with
  | zero =>
      intro lo k
      unfold primary_cell_path
      rw [dif_neg (by omega)]
      rfl
  | succ n ih =>
      intro lo k
      unfold primary_cell_path
      rw [dif_pos (by omega), show lo + (n + 1) - 1 = lo + n by omega,
        walkBox_append, List.length_replicate,
        show lo + (n + 1) = (lo + n) + 1 by omega,
        walkBox_primary_group hd (lo + n) k]
      exact ih lo (k + d)

theorem primary_cell_path_length (dims : Nat) :
    ∀ (n lo : Nat), (primary_cell_path dims (lo + n) lo).length = dims * n := by
  intro n
  induction n with
  | zero =>
      intro lo
      unfold primary_cell_path
      rw [dif_neg (by omega)]
      simp
  | succ n ih =>
      intro lo
      unfold primary_cell_path
      rw [dif_pos (by omega), show lo + (n + 1) - 1 = lo + n by omega]
      simp only [List.length_append, List.length_replicate, ih lo]
      ring

theorem prepend_tree_some (p : List Bool) (t : BinaryTreeNode) (h : p ≠ []) :
    ∃ t2, BinaryTreeNode.prepend_tree p t = some t2 := by
  induction p with
  | nil => exact absurd rfl h
  | cons b q ih =>
      cases q with
      | nil => exact ⟨_, rfl⟩
      | cons q2 ps =>
          obtain ⟨t2, ht2⟩ := ih (by simp)
          exact ⟨if b then .node (.leaf .TFalse) t2 else .node t2 (.leaf .TFalse),
            by simp [BinaryTreeNode.prepend_tree, ht2]⟩

theorem coveredB_false_leaf {d : Nat} (g : Grid d) (lb : LatticeBox d) (k : Nat)
    (x : RPoint d) : coveredB g (.leaf .TFalse) lb k x = false := by
  simp [coveredB, Tribool.definitely]

theorem prepend_tree_covered {d : Nat} (g : Grid d) :
    ∀ (p : List Bool) (told t2 : BinaryTreeNode),
      BinaryTreeNode.prepend_tree p told = some t2 →
      ∀ (lb : LatticeBox d) (k : Nat) (x : RPoint d),
        coveredB g t2 lb k x
          = coveredB g told (walkBox d lb k p) (k + p.length) x := by
  intro p
  induction p with
  | nil =>
      intro told t2 h
      exact absurd h (by simp [BinaryTreeNode.prepend_tree])
  | cons b q ih =>
      intro told t2 h lb k x
      cases q with
      | nil =>
          simp only [BinaryTreeNode.prepend_tree, Option.some.injEq] at h
          subst h
          have hidx : k + [b].length = k + 1 := by simp
          rw [hidx]
          cases b
          · show (coveredB g told (bisectBox lb (k % d) false) (k + 1) x ||
                coveredB g (.leaf .TFalse) (bisectBox lb (k % d) true) (k + 1) x) = _
            rw [coveredB_false_leaf, Bool.or_false]
            rfl
          · show (coveredB g (.leaf .TFalse) (bisectBox lb (k % d) false) (k + 1) x ||
                coveredB g told (bisectBox lb (k % d) true) (k + 1) x) = _
            rw [coveredB_false_leaf, Bool.false_or]
            rfl
      | cons q2 ps =>
          simp only [BinaryTreeNode.prepend_tree] at h
          cases hrec : BinaryTreeNode.prepend_tree (q2 :: ps) told with
          | none => rw [hrec] at h; simp at h
          | some tmid =>
              rw [hrec] at h
              simp only [Option.map_some', Option.some.injEq] at h
              subst h
              have hidx : k + (b :: q2 :: ps).length = (k + 1) + (q2 :: ps).length := by
                simp only [List.length_cons]
                omega
              rw [hidx]
              cases b
              · show (coveredB g tmid (bisectBox lb (k % d) false) (k + 1) x ||
                    coveredB g (.leaf .TFalse) (bisectBox lb (k % d) true) (k + 1) x) = _
                rw [coveredB_false_leaf, Bool.or_false, ih told tmid hrec]
                rfl
              · show (coveredB g (.leaf .TFalse) (bisectBox lb (k % d) false) (k + 1) x ||
                    coveredB g tmid (bisectBox lb (k % d) true) (k + 1) x) = _
                rw [coveredB_false_leaf, Bool.false_or, ih told tmid hrec]
                rfl

/-! The outer-approximation recursion covers every point of the set. -/

theorem adjoin_outer_rec_covers {d : Nat} (g : Grid d) (A : CompactSetOracle d)
    (hA : disjoint_sound A) (maxd : Nat) :
    ∀ (n k : Nat) (t : BinaryTreeNode) (lb : LatticeBox d) (x : RPoint d),
      maxd - k ≤ n → wfBox lb → A.mem x → inBox x (lattice_box_to_space g lb) →
      coveredB g (adjoin_outer_rec g A maxd lb t k) lb k x = true := by
  intro n
  induction n with
  | zero =>
      intro k t lb x hn hwf hmem hx
      by_cases h1 : (A.disjointO (lattice_box_to_space g lb)).definitely = true
      · exact absurd hx (hA _ x h1 hmem)
      unfold adjoin_outer_rec
      rw [if_neg h1]
      by_cases h2 : (match A.coversO with
          | some c => (c (lattice_box_to_space g lb)).definitely
          | none => false) = true
      · rw [if_pos h2]
        simp only [coveredB, Tribool.definitely, Bool.true_and, decide_eq_true_eq]
        exact hx
      rw [if_neg h2]
      by_cases h3 : t.is_enabled = true
      · rw [if_pos h3]
        cases t with
        | leaf e =>
            simp only [BinaryTreeNode.is_enabled] at h3
            simp only [coveredB, h3, Bool.true_and, decide_eq_true_eq]
            exact hx
        | node l r => simp [BinaryTreeNode.is_enabled] at h3
      rw [if_neg h3, dif_neg (by omega : ¬ k < maxd)]
      simp only [coveredB, Tribool.definitely, Bool.true_and, decide_eq_true_eq]
      exact hx
  | succ n ih =>
      intro k t lb x hn hwf hmem hx
      by_cases h1 : (A.disjointO (lattice_box_to_space g lb)).definitely = true
      · exact absurd hx (hA _ x h1 hmem)
      unfold adjoin_outer_rec
      rw [if_neg h1]
      by_cases h2 : (match A.coversO with
          | some c => (c (lattice_box_to_space g lb)).definitely
          | none => false) = true
      · rw [if_pos h2]
        simp only [coveredB, Tribool.definitely, Bool.true_and, decide_eq_true_eq]
        exact hx
      rw [if_neg h2]
      by_cases h3 : t.is_enabled = true
      · rw [if_pos h3]
        cases t with
        | leaf e =>
            simp only [BinaryTreeNode.is_enabled] at h3
            simp only [coveredB, h3, Bool.true_and, decide_eq_true_eq]
            exact hx
        | node l r => simp [BinaryTreeNode.is_enabled] at h3
      rw [if_neg h3]
      by_cases h4 : k < maxd
      · rw [dif_pos h4]
        have hwfl := bisectBox_wf hwf (k % d) false
        have hwfr := bisectBox_wf hwf (k % d) true
        by_cases h5 : ((adjoin_outer_rec g A maxd (bisectBox lb (k % d) false)
              t.splitChildren.1 (k + 1)).is_enabled
            && (adjoin_outer_rec g A maxd (bisectBox lb (k % d) true)
              t.splitChildren.2 (k + 1)).is_enabled) = true
        · rw [if_pos h5]
          simp only [coveredB, Tribool.definitely, Bool.true_and, decide_eq_true_eq]
          exact hx
        · rw [if_neg h5]
          cases bisect_cover_space g (k % d) hx with
          | inl hxl =>
              have hc := ih (k + 1) t.splitChildren.1 (bisectBox lb (k % d) false) x
                (by omega) hwfl hmem hxl
              simp only [coveredB, hc, Bool.true_or]
          | inr hxr =>
              have hc := ih (k + 1) t.splitChildren.2 (bisectBox lb (k % d) true) x
                (by omega) hwfr hmem hxr
              simp only [coveredB, hc, Bool.or_true]
      · rw [dif_neg h4]
        simp only [coveredB, Tribool.definitely, Bool.true_and, decide_eq_true_eq]
        exact hx

/-- When the target at the end of the alignment path is covered for the
point whatever subtree it is applied to, and the point lies in the box of
the target, alignment with stop-on-enabled leaves the point covered. -/
theorem align_apply_covered {d : Nat} (g : Grid d) (hg : ∀ i, 0 ≤ g.lengths i)
    (F : BinaryTreeNode → BinaryTreeNode) :
    ∀ (p : List Bool) (t : BinaryTreeNode) (lb : LatticeBox d) (k : Nat) (x : RPoint d),
      wfBox lb →
      inBox x (lattice_box_to_space g (walkBox d lb k p)) →
      (∀ t2, coveredB g (F t2) (walkBox d lb k p) (k + p.length) x = true) →
      coveredB g (align_apply F t p) lb k x = true := by
  intro p
  induction p with
  | nil =>
      intro t lb k x hwf hx hF
      simpa using hF t
  | cons b p ih =>
      intro t lb k x hwf hx hF
      show coveredB g
          (if t.is_enabled = true then t
          else if b = true then
            .node t.splitChildren.1 (align_apply F t.splitChildren.2 p)
          else .node (align_apply F t.splitChildren.1 p) t.splitChildren.2) lb k x = true
      by_cases h3 : t.is_enabled = true
      · rw [if_pos h3]
        cases t with
        | leaf e =>
            have hxlb : inBox x (lattice_box_to_space g lb) :=
              inBox_space_mono g hg (walkBox_sub (b :: p) lb k hwf) hx
            simp only [BinaryTreeNode.is_enabled] at h3
            simp only [coveredB, h3, Bool.true_and, decide_eq_true_eq]
            exact hxlb
        | node l r => simp [BinaryTreeNode.is_enabled] at h3
      · rw [if_neg h3]
        have hwf2 := bisectBox_wf hwf (k % d) b
        have hx2 : inBox x (lattice_box_to_space g (walkBox d (bisectBox lb (k % d) b) (k + 1) p)) := hx
        have hF2 : ∀ t2, coveredB g (F t2) (walkBox d (bisectBox lb (k % d) b) (k + 1) p)
            ((k + 1) + p.length) x = true := by
          intro t2
          have := hF t2
          rw [show k + (b :: p).length = (k + 1) + p.length by simp; omega] at this
          exact this
        cases b
        · rw [if_neg (by simp)]
          have hc := ih t.splitChildren.1 (bisectBox lb (k % d) false) (k + 1) x hwf2 hx2 hF2
          simp [coveredB, hc]
        · rw [if_pos rfl]
          have hc := ih t.splitChildren.2 (bisectBox lb (k % d) true) (k + 1) x hwf2 hx2 hF2
          simp [coveredB, hc]

theorem primary_cell_path_dim0 (top bottom : Nat) :
    primary_cell_path 0 top bottom = [] := by
  by_cases h : bottom < top
  · have hlen := primary_cell_path_length 0 (top - bottom) bottom
    rw [show bottom + (top - bottom) = top by omega] at hlen
    exact List.eq_nil_of_length_eq_zero (by simpa using hlen)
  · unfold primary_cell_path
    rw [dif_neg h]

theorem primary_lattice_box_wf (d h : Nat) :
    wfBox (primary_cell_lattice_box d h) := by
  intro i
  simp only [primary_cell_lattice_box]
  exact_mod_cast primary_cell_corners_le h

/-- C1: with a sound `disjoint` oracle and a sound bounding box, every point
of the abstract set lies, after `adjoin_outer_approximation`, in the box of
some enabled leaf cell of the resulting paving: the built paving is a
superset of the set. -/
theorem adjoin_outer_approximation_superset {d : Nat} (g : Grid d)
    (A : CompactSetOracle d) (S : GridTreeSet d) (n : Nat)
    (hg : ∀ i, 0 < g.lengths i) (hA : disjoint_sound A)
    (hbb : bounding_box_sound A) :
    ∀ x, A.mem x →
      coveredB g (adjoin_outer_approximation g S A n).tree
        (primary_cell_lattice_box d (adjoin_outer_approximation g S A n).height) 0 x
      = true := by
  intro x hmem
  set lbb : LatticeBox d := fun i =>
    (((A.bounding_box i).1 - g.origin i) / g.lengths i,
     ((A.bounding_box i).2 - g.origin i) / g.lengths i) with hlbb
  set hgt := smallest_enclosing_primary_cell_height lbb with hhgt
  set maxd := zero_cell_subdivisions_to_tree_subdivisions d n hgt 0 with hmaxd
  set F : BinaryTreeNode → BinaryTreeNode := fun t =>
    adjoin_outer_rec g A maxd (primary_cell_lattice_box d hgt) t 0 with hF
  have hdef : adjoin_outer_approximation g S A n =
      (if S.height > hgt then
        ⟨S.height, align_apply F S.tree (primary_cell_path d S.height hgt)⟩
      else if S.height < hgt then
        (match BinaryTreeNode.prepend_tree (primary_cell_path d hgt S.height) S.tree with
         | some t => ⟨hgt, F t⟩
         | none => ⟨hgt, F S.tree⟩)
      else ⟨hgt, F S.tree⟩) := rfl
  have hins := (smallest_enclosing_spec lbb).1
  have hwfp := primary_lattice_box_wf d hgt
  have hx : inBox x (lattice_box_to_space g (primary_cell_lattice_box d hgt)) := by
    intro i
    obtain ⟨hi1, hi2⟩ := hins i
    obtain ⟨hb1, hb2⟩ := hbb x hmem i
    have hlbbi : lbb i =
        (((A.bounding_box i).1 - g.origin i) / g.lengths i,
         ((A.bounding_box i).2 - g.origin i) / g.lengths i) := by rw [hlbb]
    rw [hlbbi] at hi1 hi2
    simp only [lattice_box_to_space]
    constructor
    · have hlt := (lt_div_iff (hg i)).1 hi1
      have hmc : g.lengths i * (primary_cell_lattice_box d hgt i).1
          = (primary_cell_lattice_box d hgt i).1 * g.lengths i := mul_comm _ _
      linarith
    · have hlt := (div_lt_iff (hg i)).1 hi2
      have hmc : g.lengths i * (primary_cell_lattice_box d hgt i).2
          = (primary_cell_lattice_box d hgt i).2 * g.lengths i := mul_comm _ _
      linarith
  have Fcov : ∀ t2, coveredB g (F t2) (primary_cell_lattice_box d hgt) 0 x = true := by
    intro t2
    rw [hF]
    exact adjoin_outer_rec_covers g A hA maxd maxd 0 t2
      (primary_cell_lattice_box d hgt) x (by omega) hwfp hmem hx
  rcases Nat.lt_trichotomy S.height hgt with hlt | heq | hgt2
  · rw [hdef, if_neg (by omega), if_pos hlt]
    have hd : 0 < d := by
      by_contra hd0
      have hd0 : d = 0 := by omega
      subst hd0
      exact (smallest_enclosing_spec lbb).2 0 (by omega) (fun i => i.elim0)
    have hne : primary_cell_path d hgt S.height ≠ [] := by
      have hlen := primary_cell_path_length d (hgt - S.height) S.height
      rw [show S.height + (hgt - S.height) = hgt by omega] at hlen
      intro hnil
      rw [hnil] at hlen
      have := Nat.mul_pos hd (show 0 < hgt - S.height by omega)
      simp at hlen
      omega
    obtain ⟨t2, ht2⟩ := prepend_tree_some _ S.tree hne
    rw [ht2]
    exact Fcov t2
  · rw [hdef, if_neg (by omega), if_neg (by omega)]
    exact Fcov S.tree
  · rw [hdef, if_pos hgt2]
    by_cases hd : 0 < d
    · have hpath := walkBox_primary_path hd (S.height - hgt) hgt 0
      rw [show hgt + (S.height - hgt) = S.height by omega] at hpath
      have hlenp := primary_cell_path_length d (S.height - hgt) hgt
      rw [show hgt + (S.height - hgt) = S.height by omega] at hlenp
      apply align_apply_covered g (fun i => le_of_lt (hg i)) F
        (primary_cell_path d S.height hgt) S.tree
        (primary_cell_lattice_box d S.height) 0 x (primary_lattice_box_wf d S.height)
      · rw [hpath]
        exact hx
      · intro t2
        rw [hpath, hlenp,
          coveredB_congr_mod g (F t2) (primary_cell_lattice_box d hgt)
            (0 + d * (S.height - hgt)) 0 x (by simp [Nat.mul_mod_right])]
        exact Fcov t2
    · have hd0 : d = 0 := by omega
      subst hd0
      rw [primary_cell_path_dim0]
      show coveredB g (F S.tree) (primary_cell_lattice_box 0 S.height) 0 x = true
      rw [show primary_cell_lattice_box 0 S.height = primary_cell_lattice_box 0 hgt from
        funext fun i => i.elim0]
      exact Fcov S.tree

/-- Witness for C1: a singleton set with trivial oracles on the unit grid. -/
theorem adjoin_outer_approximation_superset_witness :
    coveredB (⟨fun _ => 0, fun _ => 1⟩ : Grid 1)
      (adjoin_outer_approximation ⟨fun _ => 0, fun _ => 1⟩ (⟨0, .leaf .TFalse⟩ : GridTreeSet 1)
        ⟨fun x => x = fun _ => (1/2 : ℚ), fun _ => ((0 : ℚ), (1 : ℚ)),
          fun _ => .Indet, none⟩ 0).tree
      (primary_cell_lattice_box 1
        (adjoin_outer_approximation ⟨fun _ => 0, fun _ => 1⟩ (⟨0, .leaf .TFalse⟩ : GridTreeSet 1)
          ⟨fun x => x = fun _ => (1/2 : ℚ), fun _ => ((0 : ℚ), (1 : ℚ)),
            fun _ => .Indet, none⟩ 0).height)
      0 (fun _ => (1/2 : ℚ)) = true :=
  adjoin_outer_approximation_superset ⟨fun _ => 0, fun _ => 1⟩
    ⟨fun x => x = fun _ => (1/2 : ℚ), fun _ => ((0 : ℚ), (1 : ℚ)), fun _ => .Indet, none⟩
    ⟨0, .leaf .TFalse⟩ 0 (fun _ => by norm_num)
    (fun b x h => by simp [Tribool.definitely] at h)
    (fun x hx => by
      rw [hx]
      intro i
      constructor <;> norm_num)
    (fun _ => (1/2 : ℚ)) rfl

/-- C5 as stated fails: with the target height equal to the current height
the primary-cell path is empty and `prepend_tree` reads the word out of
bounds (the `size() - 1` underflow); the call does not produce a paving. -/
theorem up_to_primary_cell_same_height_counterexample :
    up_to_primary_cell 1 (⟨0, .leaf .TTrue⟩ : GridTreeSet 1) 0 = none := by
  unfold up_to_primary_cell primary_cell_path
  rw [dif_neg (by omega)]
  rfl

/-- C5 amended: for a strictly higher target primary cell (and positive
dimension), `up_to_primary_cell` succeeds, sets the new height, and the
re-rooted paving covers exactly the same points of space. -/
theorem up_to_primary_cell_denotes {d : Nat} (g : Grid d) (S : GridTreeSet d)
    (h2 : Nat) (hlt : S.height < h2) (hd : 0 < d) :
    ∃ S2, up_to_primary_cell d S h2 = some S2 ∧ S2.height = h2 ∧
      ∀ x, coveredB g S2.tree (primary_cell_lattice_box d h2) 0 x
          = coveredB g S.tree (primary_cell_lattice_box d S.height) 0 x := by
  have hne : primary_cell_path d h2 S.height ≠ [] := by
    have hlen := primary_cell_path_length d (h2 - S.height) S.height
    rw [show S.height + (h2 - S.height) = h2 by omega] at hlen
    intro hnil
    rw [hnil] at hlen
    have := Nat.mul_pos hd (show 0 < h2 - S.height by omega)
    simp at hlen
    omega
  obtain ⟨t2, ht2⟩ := prepend_tree_some _ S.tree hne
  refine ⟨⟨h2, t2⟩, ?_, rfl, ?_⟩
  · unfold up_to_primary_cell
    rw [ht2]
    rfl
  · intro x
    rw [prepend_tree_covered g _ S.tree t2 ht2 (primary_cell_lattice_box d h2) 0 x]
    have hpath := walkBox_primary_path hd (h2 - S.height) S.height 0
    rw [show S.height + (h2 - S.height) = h2 by omega] at hpath
    have hlenp := primary_cell_path_length d (h2 - S.height) S.height
    rw [show S.height + (h2 - S.height) = h2 by omega] at hlenp
    rw [hpath, hlenp]
    exact coveredB_congr_mod g S.tree _ _ 0 x (by simp [Nat.mul_mod_right])

/-- Witness for the amended C5 on a one-cell paving re-rooted two levels up. -/
theorem up_to_primary_cell_denotes_witness :
    ∃ S2, up_to_primary_cell 1 (⟨0, .leaf .TTrue⟩ : GridTreeSet 1) 2 = some S2 ∧
      S2.height = 2 ∧
      ∀ x, coveredB (⟨fun _ => 0, fun _ => 1⟩ : Grid 1) S2.tree
          (primary_cell_lattice_box 1 2) 0 x
        = coveredB (⟨fun _ => 0, fun _ => 1⟩ : Grid 1) (BinaryTreeNode.leaf .TTrue)
          (primary_cell_lattice_box 1 0) 0 x :=
  up_to_primary_cell_denotes ⟨fun _ => 0, fun _ => 1⟩ ⟨0, .leaf .TTrue⟩ 2
    (by show (0 : Nat) < 2; omega) (by omega)

/-! Preservation of the no-indeterminate-leaf invariant. -/

theorem BinaryTreeNode.node_no_indet {X Y : BinaryTreeNode}
    (hX : X.has_indet_leaf = false) (hY : Y.has_indet_leaf = false) :
    (BinaryTreeNode.node X Y).has_indet_leaf = false := by
  simp [BinaryTreeNode.has_indet_leaf, hX, hY]

theorem BinaryTreeNode.splitChildren_no_indet {t : BinaryTreeNode}
    (h : t.has_indet_leaf = false) :
    t.splitChildren.1.has_indet_leaf = false ∧
    t.splitChildren.2.has_indet_leaf = false := by
  cases t with
  | leaf e => exact ⟨h, h⟩
  | node l r =>
      simp only [BinaryTreeNode.has_indet_leaf, Bool.or_eq_false_iff] at h
      exact ⟨h.1, h.2⟩

theorem BinaryTreeNode.restrict_no_indet :
    ∀ (A B : BinaryTreeNode), A.has_indet_leaf = false → B.has_indet_leaf = false →
      (BinaryTreeNode.restrict A B).has_indet_leaf = false := by
  intro A
  induction A with
  | leaf a =>
      intro B hA hB
      cases B with
      | leaf b =>
          simp only [BinaryTreeNode.restrict, BinaryTreeNode.has_indet_leaf,
            decide_eq_false_iff_not] at hA hB ⊢
          cases a <;> cases b <;> simp_all [Tribool.and]
      | node bl br =>
          by_cases ha : a.definitely = true
          · simpa [BinaryTreeNode.restrict, ha] using hB
          · simpa [BinaryTreeNode.restrict, ha] using hA
  | node l r ihl ihr =>
      intro B hA hB
      simp only [BinaryTreeNode.has_indet_leaf, Bool.or_eq_false_iff] at hA
      cases B with
      | leaf b =>
          by_cases hb : b.definitely = true
          · simp [BinaryTreeNode.restrict, hb, BinaryTreeNode.has_indet_leaf, hA.1, hA.2]
          · simp [BinaryTreeNode.restrict, hb, BinaryTreeNode.has_indet_leaf]
      | node bl br =>
          simp only [BinaryTreeNode.has_indet_leaf, Bool.or_eq_false_iff] at hB
          simp [BinaryTreeNode.restrict, BinaryTreeNode.has_indet_leaf,
            ihl bl hA.1 hB.1, ihr br hA.2 hB.2]

theorem BinaryTreeNode.remove_no_indet :
    ∀ (B A : BinaryTreeNode), A.has_indet_leaf = false → B.has_indet_leaf = false →
      (BinaryTreeNode.remove A B).has_indet_leaf = false := by
  intro B
  induction B with
  | leaf b =>
      intro A hA hB
      cases A with
      | leaf a =>
          by_cases hab : (a.definitely && b.definitely) = true
          · simp [BinaryTreeNode.remove, hab, BinaryTreeNode.has_indet_leaf]
          · simpa [BinaryTreeNode.remove, hab] using hA
      | node l r =>
          by_cases hb : b.definitely = true
          · simp [BinaryTreeNode.remove, hb, BinaryTreeNode.has_indet_leaf]
          · simpa [BinaryTreeNode.remove, hb] using hA
  | node bl br ihbl ihbr =>
      intro A hA hB
      simp only [BinaryTreeNode.has_indet_leaf, Bool.or_eq_false_iff] at hB
      cases A with
      | leaf a =>
          by_cases ha : a.definitely = true
          · simp [BinaryTreeNode.remove, ha, BinaryTreeNode.has_indet_leaf,
              ihbl (.leaf a) hA hB.1, ihbr (.leaf a) hA hB.2]
          · simpa [BinaryTreeNode.remove, ha] using hA
      | node l r =>
          simp only [BinaryTreeNode.has_indet_leaf, Bool.or_eq_false_iff] at hA
          simp [BinaryTreeNode.remove, BinaryTreeNode.has_indet_leaf,
            ihbl l hA.1 hB.1, ihbr r hA.2 hB.2]

theorem BinaryTreeNode.mince_no_indet :
    ∀ (k : Nat) (T : BinaryTreeNode), T.has_indet_leaf = false →
      (BinaryTreeNode.mince_node T k).has_indet_leaf = false := by
  intro k
  induction k with
  | zero =>
      intro T hT
      cases T <;> exact hT
  | succ k ih =>
      intro T hT
      cases T with
      | leaf e =>
          by_cases he : e.not.definitely = true
          · simpa [BinaryTreeNode.mince_node, he] using hT
          · simp [BinaryTreeNode.mince_node, he, BinaryTreeNode.has_indet_leaf,
              ih (.leaf e) hT]
      | node l r =>
          simp only [BinaryTreeNode.has_indet_leaf, Bool.or_eq_false_iff] at hT
          simp [BinaryTreeNode.mince_node, BinaryTreeNode.has_indet_leaf,
            ih l hT.1, ih r hT.2]

theorem BinaryTreeNode.recombine_no_indet :
    ∀ (T : BinaryTreeNode), T.has_indet_leaf = false →
      (BinaryTreeNode.recombine_node T).has_indet_leaf = false := by
  intro T
  induction T with
  | leaf e => intro hT; exact hT
  | node l r ihl ihr =>
      intro hT
      simp only [BinaryTreeNode.has_indet_leaf, Bool.or_eq_false_iff] at hT
      have hl := ihl hT.1
      have hr := ihr hT.2
      simp only [BinaryTreeNode.recombine_node]
      cases hrl : BinaryTreeNode.recombine_node l with
      | leaf a =>
          rw [hrl] at hl
          cases hrr : BinaryTreeNode.recombine_node r with
          | leaf b =>
              rw [hrr] at hr
              show (if (a.teq b).definitely = true then BinaryTreeNode.leaf a
                  else BinaryTreeNode.node (.leaf a) (.leaf b)).has_indet_leaf = false
              by_cases hteq : (a.teq b).definitely = true
              · rw [if_pos hteq]
                exact hl
              · rw [if_neg hteq]
                exact BinaryTreeNode.node_no_indet hl hr
          | node b1 b2 =>
              rw [hrr] at hr
              exact BinaryTreeNode.node_no_indet hl hr
      | node a1 a2 =>
          rw [hrl] at hl
          cases hrr : BinaryTreeNode.recombine_node r with
          | leaf b =>
              rw [hrr] at hr
              exact BinaryTreeNode.node_no_indet hl hr
          | node b1 b2 =>
              rw [hrr] at hr
              exact BinaryTreeNode.node_no_indet hl hr

theorem BinaryTreeNode.add_enabled_tree_no_indet :
    ∀ (A B : BinaryTreeNode), A.has_indet_leaf = false → B.has_indet_leaf = false →
      (BinaryTreeNode.add_enabled_tree A B).has_indet_leaf = false := by
  intro A
  induction A with
  | leaf a =>
      intro B hA hB
      by_cases ha : a.definitely = true
      · simpa [BinaryTreeNode.add_enabled_tree, ha] using hA
      · cases B with
        | leaf b =>
            by_cases hb : b.definitely = true
            · simp [BinaryTreeNode.add_enabled_tree, ha, hb, BinaryTreeNode.has_indet_leaf]
            · simpa [BinaryTreeNode.add_enabled_tree, ha, hb] using hA
        | node fl fr => simpa [BinaryTreeNode.add_enabled_tree, ha] using hB
  | node l r ihl ihr =>
      intro B hA hB
      simp only [BinaryTreeNode.has_indet_leaf, Bool.or_eq_false_iff] at hA
      cases B with
      | leaf b =>
          by_cases hb : b.definitely = true
          · simp [BinaryTreeNode.add_enabled_tree, hb, BinaryTreeNode.has_indet_leaf]
          · simp [BinaryTreeNode.add_enabled_tree, hb, BinaryTreeNode.has_indet_leaf,
              hA.1, hA.2]
      | node fl fr =>
          simp only [BinaryTreeNode.has_indet_leaf, Bool.or_eq_false_iff] at hB
          simp [BinaryTreeNode.add_enabled_tree, BinaryTreeNode.has_indet_leaf,
            ihl fl hA.1 hB.1, ihr fr hA.2 hB.2]

theorem BinaryTreeNode.add_enabled_path_no_indet :
    ∀ (p : List Bool) (T : BinaryTreeNode), T.has_indet_leaf = false →
      (BinaryTreeNode.add_enabled_path T p).has_indet_leaf = false := by
  intro p
  induction p with
  | nil =>
      intro T hT
      cases T <;> simp [BinaryTreeNode.add_enabled_path, BinaryTreeNode.has_indet_leaf]
  | cons b p ih =>
      intro T hT
      cases T with
      | leaf a =>
          by_cases ha : a.definitely = true
          · simpa [BinaryTreeNode.add_enabled_path, ha] using hT
          · simp only [BinaryTreeNode.add_enabled_path, if_neg ha]
            cases b
            · rw [if_neg (by simp)]
              exact BinaryTreeNode.node_no_indet (ih _ hT) hT
            · rw [if_pos rfl]
              exact BinaryTreeNode.node_no_indet hT (ih _ hT)
      | node l r =>
          simp only [BinaryTreeNode.has_indet_leaf, Bool.or_eq_false_iff] at hT
          simp only [BinaryTreeNode.add_enabled_path]
          cases b
          · rw [if_neg (by simp)]
            exact BinaryTreeNode.node_no_indet (ih l hT.1) hT.2
          · rw [if_pos rfl]
            exact BinaryTreeNode.node_no_indet hT.1 (ih r hT.2)

theorem BinaryTreeNode.add_enabled_sub_no_indet :
    ∀ (p : List Bool) (T B : BinaryTreeNode), T.has_indet_leaf = false →
      B.has_indet_leaf = false →
      (BinaryTreeNode.add_enabled_sub T B p).has_indet_leaf = false := by
  intro p
  induction p with
  | nil =>
      intro T B hT hB
      by_cases ht : T.is_enabled = true
      · simpa [BinaryTreeNode.add_enabled_sub, ht] using hT
      · simpa [BinaryTreeNode.add_enabled_sub, ht] using
          BinaryTreeNode.add_enabled_tree_no_indet T B hT hB
  | cons b p ih =>
      intro T B hT hB
      by_cases ht : T.is_enabled = true
      · simpa [BinaryTreeNode.add_enabled_sub, ht] using hT
      · have hsp := BinaryTreeNode.splitChildren_no_indet hT
        cases b <;>
          simp [BinaryTreeNode.add_enabled_sub, ht, BinaryTreeNode.has_indet_leaf,
            ih _ B hsp.1 hB, ih _ B hsp.2 hB, hsp.1, hsp.2]

theorem BinaryTreeNode.prepend_tree_no_indet :
    ∀ (p : List Bool) (T T2 : BinaryTreeNode), T.has_indet_leaf = false →
      BinaryTreeNode.prepend_tree p T = some T2 → T2.has_indet_leaf = false := by
  intro p
  induction p with
  | nil => intro T T2 hT h; exact absurd h (by simp [BinaryTreeNode.prepend_tree])
  | cons b q ih =>
      intro T T2 hT h
      cases q with
      | nil =>
          simp only [BinaryTreeNode.prepend_tree, Option.some.injEq] at h
          subst h
          cases b <;> simp [BinaryTreeNode.has_indet_leaf, hT]
      | cons q2 ps =>
          simp only [BinaryTreeNode.prepend_tree] at h
          cases hrec : BinaryTreeNode.prepend_tree (q2 :: ps) T with
          | none => rw [hrec] at h; simp at h
          | some tmid =>
              rw [hrec] at h
              simp only [Option.map_some', Option.some.injEq] at h
              subst h
              have := ih T tmid hT hrec
              cases b <;> simp [BinaryTreeNode.has_indet_leaf, this]

theorem BinaryTreeNode.add_enabled_from_file_no_indet :
    ∀ (fuel : Nat) (s : List Bool) (T : BinaryTreeNode) (rest : List Bool),
      BinaryTreeNode.add_enabled_from_file fuel s = some (T, rest) →
      T.has_indet_leaf = false := by
  intro fuel
  induction fuel with
  | zero => intro s T rest h; exact absurd h (by simp [BinaryTreeNode.add_enabled_from_file])
  | succ fuel ih =>
      intro s T rest h
      match s with
      | [] => exact absurd h (by simp [BinaryTreeNode.add_enabled_from_file])
      | false :: rest2 =>
          match rest2 with
          | [] => exact absurd h (by simp [BinaryTreeNode.add_enabled_from_file])
          | e :: rest3 =>
              simp only [BinaryTreeNode.add_enabled_from_file, Option.some.injEq,
                Prod.mk.injEq] at h
              rw [← h.1]
              cases e <;> simp [Tribool.ofBool, BinaryTreeNode.has_indet_leaf]
      | true :: rest2 =>
          simp only [BinaryTreeNode.add_enabled_from_file] at h
          cases h1 : BinaryTreeNode.add_enabled_from_file fuel rest2 with
          | none => rw [h1] at h; simp at h
          | some lp =>
              obtain ⟨lt, lrest⟩ := lp
              rw [h1] at h
              have h' : (match BinaryTreeNode.add_enabled_from_file fuel lrest with
                  | none => none
                  | some (r, rest3) => some (BinaryTreeNode.node lt r, rest3))
                  = some (T, rest) := h
              cases h2 : BinaryTreeNode.add_enabled_from_file fuel lrest with
              | none => rw [h2] at h'; simp at h'
              | some rp =>
                  obtain ⟨rt, rrest⟩ := rp
                  rw [h2] at h'
                  simp only [Option.some.injEq, Prod.mk.injEq] at h'
                  rw [← h'.1]
                  exact BinaryTreeNode.node_no_indet (ih rest2 lt lrest h1)
                    (ih lrest rt rrest h2)

theorem adjoin_outer_rec_no_indet {d : Nat} (g : Grid d) (A : CompactSetOracle d)
    (maxd : Nat) :
    ∀ (n k : Nat) (t : BinaryTreeNode) (lb : LatticeBox d),
      maxd - k ≤ n → t.has_indet_leaf = false →
      (adjoin_outer_rec g A maxd lb t k).has_indet_leaf = false := by
  intro n
  induction n with
  | zero =>
      intro k t lb hn ht
      unfold adjoin_outer_rec
      split
      · exact ht
      split
      · simp [BinaryTreeNode.has_indet_leaf]
      split
      · exact ht
      rw [dif_neg (by omega : ¬ k < maxd)]
      simp [BinaryTreeNode.has_indet_leaf]
  | succ n ih =>
      intro k t lb hn ht
      unfold adjoin_outer_rec
      split
      · exact ht
      split
      · simp [BinaryTreeNode.has_indet_leaf]
      split
      · exact ht
      by_cases h4 : k < maxd
      · rw [dif_pos h4]
        have hsp := BinaryTreeNode.splitChildren_no_indet ht
        have hl := ih (k + 1) t.splitChildren.1 (bisectBox lb (k % d) false) (by omega) hsp.1
        have hr := ih (k + 1) t.splitChildren.2 (bisectBox lb (k % d) true) (by omega) hsp.2
        split
        · simp [BinaryTreeNode.has_indet_leaf]
        · simp [BinaryTreeNode.has_indet_leaf, hl, hr]
      · rw [dif_neg h4]
        simp [BinaryTreeNode.has_indet_leaf]

theorem align_apply_no_indet (F : BinaryTreeNode → BinaryTreeNode)
    (hF : ∀ t, t.has_indet_leaf = false → (F t).has_indet_leaf = false) :
    ∀ (p : List Bool) (t : BinaryTreeNode), t.has_indet_leaf = false →
      (align_apply F t p).has_indet_leaf = false := by
  intro p
  induction p with
  | nil => intro t ht; exact hF t ht
  | cons b p ih =>
      intro t ht
      by_cases he : t.is_enabled = true
      · simpa [align_apply, he] using ht
      · have hsp := BinaryTreeNode.splitChildren_no_indet ht
        cases b <;>
          simp [align_apply, he, BinaryTreeNode.has_indet_leaf,
            ih _ hsp.1, ih _ hsp.2, hsp.1, hsp.2]

theorem adjoin_outer_approximation_no_indet {d : Nat} (g : Grid d)
    (A : CompactSetOracle d) (S : GridTreeSet d) (n : Nat)
    (hS : S.tree.has_indet_leaf = false) :
    (adjoin_outer_approximation g S A n).tree.has_indet_leaf = false := by
  set lbb : LatticeBox d := fun i =>
    (((A.bounding_box i).1 - g.origin i) / g.lengths i,
     ((A.bounding_box i).2 - g.origin i) / g.lengths i) with hlbb
  set hgt := smallest_enclosing_primary_cell_height lbb with hhgt
  set maxd := zero_cell_subdivisions_to_tree_subdivisions d n hgt 0 with hmaxd
  set F : BinaryTreeNode → BinaryTreeNode := fun t =>
    adjoin_outer_rec g A maxd (primary_cell_lattice_box d hgt) t 0 with hF
  have hFok : ∀ t, t.has_indet_leaf = false → (F t).has_indet_leaf = false := by
    intro t ht
    rw [hF]
    exact adjoin_outer_rec_no_indet g A maxd maxd 0 t _ (by omega) ht
  have hdef : adjoin_outer_approximation g S A n =
      (if S.height > hgt then
        ⟨S.height, align_apply F S.tree (primary_cell_path d S.height hgt)⟩
      else if S.height < hgt then
        (match BinaryTreeNode.prepend_tree (primary_cell_path d hgt S.height) S.tree with
         | some t => ⟨hgt, F t⟩
         | none => ⟨hgt, F S.tree⟩)
      else ⟨hgt, F S.tree⟩) := rfl
  rw [hdef]
  rcases Nat.lt_trichotomy S.height hgt with hlt | heq | hgt2
  · rw [if_neg (by omega), if_pos hlt]
    cases hpre : BinaryTreeNode.prepend_tree (primary_cell_path d hgt S.height) S.tree with
    | none => exact hFok S.tree hS
    | some t2 =>
        exact hFok t2 (BinaryTreeNode.prepend_tree_no_indet _ S.tree t2 hS hpre)
  · rw [if_neg (by omega), if_neg (by omega)]
    exact hFok S.tree hS
  · rw [if_pos hgt2]
    exact align_apply_no_indet F hFok _ S.tree hS

/-- C6 counterexample: exporting resets the in-memory tree to a single
indeterminate leaf, so the export operation does not preserve the
invariant that indeterminate never appears on a leaf. -/
theorem export_violates_no_indet_leaf :
    (BinaryTreeNode.export_to_file (.leaf .TFalse)).2.has_indet_leaf = true := by
  rfl

/-- C6 amended: the tree operations of the engine — restrict, remove,
mince, recombine, the three add_enabled forms, prepend_tree, the
outer-approximation adjoining (alignment included) and import — all
preserve the invariant that the indeterminate flag never sits on a leaf;
export_to_file instead leaves the in-memory tree as a single indeterminate
leaf (the byte stream itself never records indeterminate). -/
theorem operations_preserve_no_indet_leaf {d : Nat} (g : Grid d)
    (A : CompactSetOracle d) (S : GridTreeSet d) (n : Nat)
    (T U T2 : BinaryTreeNode) (k fuel : Nat) (p s rest : List Bool)
    (hT : T.has_indet_leaf = false) (hU : U.has_indet_leaf = false)
    (hS : S.tree.has_indet_leaf = false) :
    (BinaryTreeNode.restrict T U).has_indet_leaf = false ∧
    (BinaryTreeNode.remove T U).has_indet_leaf = false ∧
    (BinaryTreeNode.mince_node T k).has_indet_leaf = false ∧
    (BinaryTreeNode.recombine_node T).has_indet_leaf = false ∧
    (BinaryTreeNode.add_enabled_tree T U).has_indet_leaf = false ∧
    (BinaryTreeNode.add_enabled_path T p).has_indet_leaf = false ∧
    (BinaryTreeNode.add_enabled_sub T U p).has_indet_leaf = false ∧
    (BinaryTreeNode.prepend_tree p T = some T2 → T2.has_indet_leaf = false) ∧
    (BinaryTreeNode.add_enabled_from_file fuel s = some (T2, rest) →
      T2.has_indet_leaf = false) ∧
    (adjoin_outer_approximation g S A n).tree.has_indet_leaf = false :=
  ⟨BinaryTreeNode.restrict_no_indet T U hT hU,
   BinaryTreeNode.remove_no_indet U T hT hU,
   BinaryTreeNode.mince_no_indet k T hT,
   BinaryTreeNode.recombine_no_indet T hT,
   BinaryTreeNode.add_enabled_tree_no_indet T U hT hU,
   BinaryTreeNode.add_enabled_path_no_indet p T hT,
   BinaryTreeNode.add_enabled_sub_no_indet p T U hT hU,
   fun h => BinaryTreeNode.prepend_tree_no_indet p T T2 hT h,
   fun h => BinaryTreeNode.add_enabled_from_file_no_indet fuel s T2 rest h,
   adjoin_outer_approximation_no_indet g A S n hS⟩

/-- Witness for the amended C6 at concrete trees. -/
theorem operations_preserve_no_indet_leaf_witness :
    (BinaryTreeNode.restrict (.leaf .TTrue) (.leaf .TFalse)).has_indet_leaf = false ∧
    (BinaryTreeNode.remove (.leaf .TTrue) (.leaf .TFalse)).has_indet_leaf = false ∧
    (BinaryTreeNode.mince_node (.leaf .TTrue) 1).has_indet_leaf = false ∧
    (BinaryTreeNode.recombine_node (.leaf .TTrue)).has_indet_leaf = false ∧
    (BinaryTreeNode.add_enabled_tree (.leaf .TTrue) (.leaf .TFalse)).has_indet_leaf = false ∧
    (BinaryTreeNode.add_enabled_path (.leaf .TTrue) [true]).has_indet_leaf = false ∧
    (BinaryTreeNode.add_enabled_sub (.leaf .TTrue) (.leaf .TFalse) [true]).has_indet_leaf
      = false ∧
    (BinaryTreeNode.prepend_tree [true] (.leaf .TTrue) = some (.node (.leaf .TFalse) (.leaf .TTrue)) →
      BinaryTreeNode.has_indet_leaf (.node (.leaf .TFalse) (.leaf .TTrue)) = false) ∧
    (BinaryTreeNode.add_enabled_from_file 2 [false, true]
        = some (.node (.leaf .TFalse) (.leaf .TTrue), []) →
      BinaryTreeNode.has_indet_leaf (.node (.leaf .TFalse) (.leaf .TTrue)) = false) ∧
    (adjoin_outer_approximation (⟨fun _ => 0, fun _ => 1⟩ : Grid 1)
        (⟨0, .leaf .TFalse⟩ : GridTreeSet 1)
        ⟨fun _ => True, fun _ => ((0 : ℚ), (1 : ℚ)), fun _ => .TTrue, none⟩
        0).tree.has_indet_leaf = false :=
  operations_preserve_no_indet_leaf ⟨fun _ => 0, fun _ => 1⟩
    ⟨fun _ => True, fun _ => ((0 : ℚ), (1 : ℚ)), fun _ => .TTrue, none⟩
    ⟨0, .leaf .TFalse⟩ 0 (.leaf .TTrue) (.leaf .TFalse)
    (.node (.leaf .TFalse) (.leaf .TTrue)) 1 2 [true] [false, true] []
    (by decide) (by decide) (by decide)

/-! The neighbor-cell backward scan never underflows. -/

theorem bisectBox_wfS {d : Nat} {lb : LatticeBox d} (h : wfBoxS lb) (ax : Nat) (b : Bool) :
    wfBoxS (bisectBox lb ax b) := by
  intro i
  have hlu := h i
  simp only [bisectBox]
  split
  · cases b <;> simp <;> linarith
  · exact hlu

theorem walkBox_wfS {d : Nat} :
    ∀ (w : List Bool) (lb : LatticeBox d) (k : Nat), wfBoxS lb →
      wfBoxS (walkBox d lb k w) := by
  intro w
  induction w with
  | nil => intro lb k h; exact h
  | cons b w ih => intro lb k h; exact ih _ _ (bisectBox_wfS h _ _)

theorem primary_lattice_box_wfS (d h : Nat) :
    wfBoxS (primary_cell_lattice_box d h) := by
  intro i
  simp only [primary_cell_lattice_box]
  have hdiff := primary_cell_corners_diff h
  have hpos : (0 : Int) < 2 ^ h := by positivity
  exact_mod_cast (show (primary_cell_corners h).1 < (primary_cell_corners h).2 by omega)

theorem walkBox_upper_all_true {d : Nat} (dim : Fin d) :
    ∀ (w : List Bool) (lb : LatticeBox d) (k : Nat),
      (∀ p, p < w.length → (k + p) % d = (dim : Nat) → w.getD p true = true) →
      (walkBox d lb k w dim).2 = (lb dim).2 := by
  intro w
  induction w with
  | nil => intro lb k _; rfl
  | cons b w ih =>
      intro lb k h
      have hstep : (bisectBox lb (k % d) b dim).2 = (lb dim).2 := by
        by_cases hik : ((dim : Nat)) = k % d
        · have hb : b = true := by
            have := h 0 (by simp) (by simpa using hik.symm)
            simpa using this
          subst hb
          simp [bisectBox, hik]
        · simp [bisectBox, hik]
      have hrest : ∀ p, p < w.length → (k + 1 + p) % d = (dim : Nat) →
          w.getD p true = true := by
        intro p hp hmod
        have := h (p + 1) (by simpa using Nat.succ_lt_succ hp)
          (by rw [show k + (p + 1) = k + 1 + p by omega]; exact hmod)
        simpa using this
      show (walkBox d (bisectBox lb (k % d) b) (k + 1) w dim).2 = (lb dim).2
      rw [ih (bisectBox lb (k % d) b) (k + 1) hrest, hstep]

theorem upper_search_success (u : ℚ) :
    ∃ j, j < 2 * (⌈|u|⌉).toNat + 4 ∧
      decide (u ≤ ((primary_cell_corners (0 + j)).2 : ℚ)) = true := by
  refine ⟨2 * ((⌈|u|⌉).toNat + 1), by omega, ?_⟩
  rw [Nat.zero_add]
  refine decide_eq_true ?_
  have hbound := (primary_cell_corners_bound ((⌈|u|⌉).toNat + 1)).2
  have h0 : (0 : Int) ≤ ⌈|u|⌉ := Int.ceil_nonneg (abs_nonneg _)
  have h1 : |u| ≤ ((⌈|u|⌉).toNat : ℚ) := by
    calc |u| ≤ ((⌈|u|⌉ : Int) : ℚ) := Int.le_ceil _
      _ = ((⌈|u|⌉).toNat : ℚ) := by exact_mod_cast (Int.toNat_of_nonneg h0).symm
  have h2 : ((⌈|u|⌉).toNat : ℚ) + 1 + 1
      ≤ ((primary_cell_corners (2 * ((⌈|u|⌉).toNat + 1))).2 : ℚ) := by
    exact_mod_cast hbound
  have h3 := le_abs_self u
  linarith

theorem neighboring_scan_some (w : List Bool) (dims dim : Nat)
    (hex : ∃ p, p < w.length ∧ p % dims = dim ∧ w.getD p true = false) :
    ∃ q, neighboring_scan w dims dim = some q := by
  obtain ⟨p, hp, hmod, hbit⟩ := hex
  have hsome : (((List.range w.length).reverse).find? fun p =>
      decide (p % dims = dim ∧ w.getD p true = false)).isSome :=
    List.find?_isSome.mpr ⟨p, by simpa using hp, decide_eq_true ⟨hmod, hbit⟩⟩
  obtain ⟨q, hq⟩ := Option.isSome_iff_exists.mp hsome
  exact ⟨q, hq⟩

/-- C7: for every base cell (height and word) and every axis, after the
primary-cell extension of steps 2–3 the backward scan of
`GridCell::neighboringCell` finds a false bit on the axis at a valid index
before the unsigned position index would wrap below zero, and the function
returns a well-defined neighboring cell. -/
theorem neighboringCell_total {d : Nat} (theHeight : Nat) (theWord : List Bool)
    (dim : Fin d) :
    ∃ c, neighboringCell d theHeight theWord dim = some c := by
  have hd : 0 < d := dim.pos
  set u := neighboring_upper d theHeight theWord dim with hu
  set P : Nat → Bool :=
    fun h => decide (u ≤ ((primary_cell_corners h).2 : ℚ)) with hPdef
  have hheq : neighboring_height d theHeight theWord dim
      = findFirst P (2 * (⌈|u|⌉).toNat + 4) 0 := rfl
  set hh := neighboring_height d theHeight theWord dim with hhdef
  obtain ⟨hPfound, _, hleast⟩ :=
    findFirst_spec P (2 * (⌈|u|⌉).toNat + 4) 0
      (by obtain ⟨j, hj1, hj2⟩ := upper_search_success u; exact ⟨j, hj1, hj2⟩)
  rw [← hheq] at hPfound hleast
  have hufound : u ≤ ((primary_cell_corners hh).2 : ℚ) := by
    have := hPfound
    rw [hPdef] at this
    exact of_decide_eq_true this
  by_cases hcase : theHeight < hh
  · -- the word was re-rooted; the leading primary-path group is all false
    have hbase : neighboring_base d theHeight theWord dim
        = (hh, primary_cell_path d hh theHeight ++ theWord) := by
      unfold neighboring_base
      rw [← hhdef, if_pos hcase]
    have heven : hh % 2 = 0 := by
      by_contra hodd2
      have hodd : hh % 2 = 1 := by omega
      have heq := primary_cell_corners_odd_eq (hh - 1) (by omega)
      rw [show hh - 1 + 1 = hh by omega] at heq
      have hP1 : P (hh - 1) = true := by
        rw [hPdef]
        refine decide_eq_true ?_
        rw [← heq]
        exact hufound
      have hfalse := hleast (hh - 1) (Nat.zero_le _) (by omega)
      rw [hfalse] at hP1
      exact Bool.false_ne_true hP1
    have hpath : primary_cell_path d hh theHeight
        = List.replicate d false ++ primary_cell_path d (hh - 1) theHeight := by
      conv_lhs => unfold primary_cell_path
      rw [dif_pos hcase, show (hh % 2 == 1) = false from by simp [heven]]
    have hlen1 : d ≤ (primary_cell_path d hh theHeight ++ theWord).length := by
      rw [hpath]
      simp only [List.append_assoc, List.length_append, List.length_replicate]
      omega
    have hbit : (primary_cell_path d hh theHeight ++ theWord).getD (dim : Nat) true
        = false := by
      rw [hpath, List.append_assoc,
        List.getD_append _ _ true (dim : Nat) (by simpa using dim.isLt)]
      simp [List.getD_eq_getElem?_getD, List.getElem?_replicate, dim.isLt]
    obtain ⟨q, hq⟩ := neighboring_scan_some (primary_cell_path d hh theHeight ++ theWord)
      d (dim : Nat)
      ⟨(dim : Nat), lt_of_lt_of_le dim.isLt hlen1, Nat.mod_eq_of_lt dim.isLt, hbit⟩
    have hscan : neighboring_scan (neighboring_base d theHeight theWord dim).2 d dim
        = some q := by
      rw [hbase]
      exact hq
    exact ⟨_, by unfold neighboringCell; rw [hscan]⟩
  · -- no re-rooting: a false bit on the axis must already exist in the word
    have hbase : neighboring_base d theHeight theWord dim = (theHeight, theWord) := by
      unfold neighboring_base
      rw [← hhdef, if_neg hcase]
    have hex : ∃ p, p < theWord.length ∧ p % d = (dim : Nat) ∧
        theWord.getD p true = false := by
      by_contra hno
      push_neg at hno
      have hall : ∀ p, p < theWord.length → (0 + p) % d = (dim : Nat) →
          theWord.getD p true = true := by
        intro p h1 h2
        have hb := hno p h1 (by simpa using h2)
        revert hb
        cases theWord.getD p true <;> simp
      have hupper_eq : (compute_lattice_box d theHeight theWord dim).2
          = (primary_cell_lattice_box d theHeight dim).2 := by
        unfold compute_lattice_box
        exact walkBox_upper_all_true dim theWord _ 0 hall
      have hstrict : (compute_lattice_box d theHeight theWord dim).1
          < (compute_lattice_box d theHeight theWord dim).2 :=
        walkBox_wfS theWord (primary_cell_lattice_box d theHeight) 0
          (primary_lattice_box_wfS d theHeight) dim
      have hprim2 : (primary_cell_lattice_box d theHeight dim).2
          = ((primary_cell_corners theHeight).2 : ℚ) := rfl
      have hlt2 : ((primary_cell_corners theHeight).2 : ℚ) < u := by
        rw [hu]
        unfold neighboring_upper
        rw [hupper_eq, hprim2] at hstrict ⊢
        linarith
      have hmono : ((primary_cell_corners hh).2 : ℚ)
          ≤ ((primary_cell_corners theHeight).2 : ℚ) := by
        exact_mod_cast (primary_cell_corners_mono (show hh ≤ theHeight by omega)).2
      linarith
    obtain ⟨p0, hp1, hp2, hp3⟩ := hex
    obtain ⟨q, hq⟩ := neighboring_scan_some theWord d (dim : Nat) ⟨p0, hp1, hp2, hp3⟩
    have hscan : neighboring_scan (neighboring_base d theHeight theWord dim).2 d dim
        = some q := by
      rw [hbase]
      exact hq
    exact ⟨_, by unfold neighboringCell; rw [hscan]⟩

end Ariadne
